import Mathlib

/-!
Verification of the steamback save-game engine (`py_modules/steamback/__init__.py`).

The Python module is shallowly embedded: pure string/path algorithms become Lean
functions on `List Char` / `String`, the snapshot store (the `saves2` directory)
becomes a list of named entries, the game-side filesystem becomes a function from
paths to file states, and Python exceptions become explicit error values.
-/

namespace Steamback

/-! ## Python regex `\s` (ASCII white space characters) -/

/-- The ASCII characters matched by the regex class `\s` used in `_parse_vcf`. -/
def isSpaceC (c : Char) : Bool :=
  c = ' ' || c = '\t' || c = '\n' || c = '\r' || c = '\x0b' || c = '\x0c'

/-! ## The key/value line matcher of `_parse_vcf`

`_parse_vcf` matches each line against `re.fullmatch` of `\s*"(.+)"\s+"(.+)"\s*`.
We embed the backtracking semantics of that particular pattern: the leading `\s*`
is forced (a `"` is not white space), group 1 is maximized first, then `\s+`
(again forced), then group 2 is maximized.  `.` does not match a newline, hence
the `noNL` side conditions on the groups. -/

/-- All ways to split a string as `pre ++ '"' :: post`, in order of increasing
`pre` length. -/
def quoteSplits : List Char → List (List Char × List Char)
  | [] => []
  | c :: rest =>
    (if c = '"' then [(([] : List Char), rest)] else []) ++
      (quoteSplits rest).map (fun p => (c :: p.1, p.2))

/-- `true` when the string contains no newline (the regex `.` cannot match one). -/
def noNL (s : List Char) : Bool := s.all (fun c => c ≠ '\n')

/-- Matcher for the part of the pattern after group 1's closing quote:
`\s+"(.+)"\s*`.  Returns group 2 on success. -/
def matchTail (rest : List Char) : Option (List Char) :=
  if (rest.takeWhile isSpaceC).isEmpty then none
  else
    match rest.dropWhile isSpaceC with
    | c :: rest3 =>
      if c = '"' then
        ((quoteSplits rest3).reverse.find?
            (fun p => !p.1.isEmpty && noNL p.1 && p.2.all isSpaceC)).map (fun p => p.1)
      else none
    | [] => none

/-- Full-match of one line against `\s*"(.+)"\s+"(.+)"\s*`, returning the two
groups (key, value) on success. -/
def lineKV (s : List Char) : Option (List Char × List Char) :=
  match s.dropWhile isSpaceC with
  | c :: r2 =>
    if c = '"' then
      ((quoteSplits r2).reverse.find?
          (fun p => !p.1.isEmpty && noNL p.1 && (matchTail p.2).isSome)).bind
        (fun p => (matchTail p.2).map (fun g2 => (p.1, g2)))
    else none
  | [] => none

/-! ## `_parse_vcf` -/

/-- Python `d[k] = v` on an insertion-ordered dict: replace in place if the key
is present, else append. -/
def upsert (k v : List Char) : List (List Char × List Char) → List (List Char × List Char)
  | [] => [(k, v)]
  | (k', v') :: rest => if k' = k then (k, v) :: rest else (k', v') :: upsert k v rest

/-- A text filesystem: maps a path to the list of lines of the file, or `none`
when the file is missing (Python raises `FileNotFoundError`, which `_parse_vcf`
catches, returning the still-empty dict). -/
def TextFs := String → Option (List (List Char))

/-- The body of `_parse_vcf`'s line loop: on a match store the pair, else skip. -/
def vcfStep (d : List (List Char × List Char)) (line : List Char) :
    List (List Char × List Char) :=
  match lineKV line with
  | some (k, v) => upsert k v d
  | none => d

/-- `_parse_vcf`: match every line against the key/value pattern and collect the
pairs into a dict; a missing file yields the empty dict. -/
def _parse_vcf (fs : TextFs) (path : String) : List (List Char × List Char) :=
  match fs path with
  | none => []
  | some lines => lines.foldl vcfStep []

/-- Lookup in the embedded dict. -/
def lookupKV (d : List (List Char × List Char)) (k : List Char) : Option (List Char) :=
  (d.find? (fun p => p.1 = k)).map (fun p => p.2)

/-- The value of the last matched line carrying key `k`, if any: the reference
"last duplicate key wins" reading of the spec. -/
def lastVal (ps : List (List Char × List Char)) (k : List Char) : Option (List Char) :=
  (ps.reverse.find? (fun p => p.1 = k)).map (fun p => p.2)

/-! ## `_find_save_root_from_autoclouds`

The save-root inference from an opaque autocloud marker directory
(`__init__.py` lines 244-284).  Paths are embedded as `List Char`. -/

/-- Index of the first differing character of two strings, scanning only up to
the shorter length; `none` when one string is a prefix of the other (including
equal strings).  Mirrors
`next((i for i in range(min(len(prevR), len(r))) if prevR[i] != r[i]), None)`. -/
def firstDiffIdx : List Char → List Char → Option Nat
  | x :: xs, y :: ys => if x ≠ y then some 0 else (firstDiffIdx xs ys).map (· + 1)
  | _, _ => none

/-- The `for r in rcf` loop: `prevR` and `firstDifference` threaded through the
consecutive-pair scan. -/
def scanPrefixLen : List Char → Nat → List (List Char) → List Char × Nat
  | prevR, fd, [] => (prevR, fd)
  | prevR, fd, r :: rest =>
    let fd' :=
      match firstDiffIdx prevR r with
      | some i => if fd > i then i else fd
      | none => fd
    scanPrefixLen r fd' rest

/-- Python `rPrefix.rfind('/')` as an optional index. -/
def lastSlashIdx (s : List Char) : Option Nat :=
  (List.range s.length).foldl
    (fun acc i => if s.get? i = some '/' then some i else acc) none

/-- Python `s[-n:]`: for `n = 0` the WHOLE string (a Python quirk: `s[-0:]` is
`s[0:]`), otherwise the last `n` characters (all of `s` when `n ≥ len(s)`). -/
def pySliceLast (n : Nat) (s : List Char) : List Char :=
  if n = 0 then s else s.drop (s.length - n)

/-- Python `s[:-n]`: for `n = 0` the EMPTY string (`s[:-0]` is `s[:0]`),
otherwise everything but the last `n` characters. -/
def pyDropLast (n : Nat) (s : List Char) : List Char :=
  if n = 0 then [] else s.take (s.length - n)

/-- `posixpath.normpath` (the target platform is Linux, where `os.path` is
`posixpath`): collapse `//`, drop `.` components, resolve `..`. -/
def normpath (p : List Char) : List Char :=
  if p = [] then ['.']
  else
    let initSlashes : Nat :=
      if p.take 2 = ['/', '/'] ∧ ¬ p.take 3 = ['/', '/', '/'] then 2
      else if p.take 1 = ['/'] then 1 else 0
    let comps := p.splitOn '/'
    let newComps := comps.foldl
      (fun acc comp =>
        if comp = [] ∨ comp = ['.'] then acc
        else if comp ≠ ['.', '.'] ∨ (initSlashes = 0 ∧ acc = []) ∨
            (acc ≠ [] ∧ acc.getLast? = some ['.', '.']) then acc ++ [comp]
        else if acc ≠ [] then acc.dropLast
        else acc)
      []
    let res := List.replicate initSlashes '/' ++ List.intercalate ['/'] newComps
    if res = [] then ['.'] else res

/-- The common trimming/stripping tail of the algorithm, shared verbatim by the
source and by the spec's description of it: trim the computed prefix back to
the last `/`, and if the marker directory ends with the trimmed prefix, strip
it; finally normalize the path. -/
def trimAndStrip (rPref autocloud : List Char) : List Char :=
  match lastSlashIdx rPref with
  | none => normpath autocloud
  | some d =>
    let rp := rPref.take d
    let autoTail := pySliceLast rp.length autocloud
    let ac := if autoTail = rp then pyDropLast rp.length autocloud else autocloud
    normpath ac

/-- `_find_save_root_from_autoclouds` from the source: the candidate prefix is
the LAST manifest entry truncated at the running minimum of consecutive-pair
first-difference indices (pairs in the prefix relation leave the minimum
untouched). -/
def _find_save_root_from_autoclouds (rcf : List (List Char)) (autocloud : List Char) :
    Option (List Char) :=
  match rcf with
  | [] => none
  | r0 :: _ =>
    let pr := scanPrefixLen r0 r0.length rcf
    some (trimAndStrip (pr.1.take pr.2) autocloud)

/-- Longest common prefix of two strings. -/
def lcp2 : List Char → List Char → List Char
  | x :: xs, y :: ys => if x = y then x :: lcp2 xs ys else []
  | _, _ => []

/-- Modelled from the spec: "compute the longest common prefix string across
all manifest entry paths; trim it back to the last path-separator boundary; if
the marker directory's path ends with that trimmed prefix, strip the matching
suffix from the marker directory to obtain the save root, else use the marker
directory unchanged". -/
def find_save_root_specalg (rcf : List (List Char)) (autocloud : List Char) :
    Option (List Char) :=
  match rcf with
  | [] => none
  | r0 :: rest => some (trimAndStrip (rest.foldl lcp2 r0) autocloud)

/-! ## The snapshot engine

The snapshot store (directory `saves2`) is a list of named entries: sidecar
JSON files and payload files (a payload file `pfile d k` lives in top-level
payload directory `d` under relative path `k`).  Paths inside the store are
relative to the store root.  The game-side filesystem is a function from
absolute paths to file states; modification times are already in milliseconds
(the code converts `os.path.getmtime` seconds to ms). -/

/-- Python `glob`'s `name*` test specialised to the literal prefixes the engine
generates (generated snapshot names `save_<id>_<ts>` / `undo_<id>_<ts>` contain
no glob metacharacters, so `glob.glob(name + "*")` matches exactly the entries
whose name starts with `name`). -/
def strPref (a b : String) : Bool := a.toList.isPrefixOf b.toList

/-- Embedded `game_info` dict of a title whose `save_games_roots` have already
been resolved and cached: `roots` is the ordered mapping save-root directory →
snapshot-directory suffix. -/
structure GameInfo where
  game_id : Nat
  roots : List (String × String)
  deriving DecidableEq

/-- Embedded `SaveInfo` dict: the sidecar content. -/
structure SaveInfo where
  game_info : GameInfo
  timestamp : Nat
  filename : String
  is_undo : Bool
  deriving DecidableEq

/-- Content of a sidecar JSON file on disk: parseable or corrupt. -/
inductive SidecarContent
  | valid (si : SaveInfo)
  | corrupt
  deriving DecidableEq

/-- One top-level entry of the snapshot store: the sidecar file
`filename + ".json"`, or a payload file inside directory `dirname`. -/
inductive Entry
  | json (filename : String) (content : SidecarContent)
  | pfile (dirname : String) (relpath : String)
  deriving DecidableEq

/-- The name of the top-level store entry a glob over the store sees. -/
def Entry.topName : Entry → String
  | .json f _ => f ++ ".json"
  | .pfile d _ => d

abbrev Store := List Entry

/-- Engine state relevant to the snapshot operations. -/
structure Engine where
  dry_run : Bool
  max_saves : Nat
  ignore_unchanged : Bool

/-- Python exceptions the embedded operations can raise. -/
inductive PyExc
  | valueError
  | osError
  | assertionError
  deriving DecidableEq

/-- A game-side file: missing, or present with an mtime (ms); `readable = false`
marks a file whose copy raises (`shutil.copy2` failure). -/
inductive FileState
  | absent
  | file (mtimeMs : Nat) (readable : Bool)
  deriving DecidableEq

abbrev GFs := String → FileState

/-- `os.path.join` for a relative manifest entry. -/
def joinPath (a b : String) : String := a ++ "/" ++ b

/-- `_delete_savedir`: `glob(filename + "*")` over the store and remove every
match (files via `os.remove`, directories via `shutil.rmtree`). -/
def _delete_savedir (filename : String) (store : Store) : Store :=
  store.filter (fun e => !(strPref filename e.topName))

/-- The saveinfos parsed from the sidecar files of the store, in store order;
corrupt sidecars are dropped (their read raises and the caller catches). -/
def rawInfos (store : Store) : List SaveInfo :=
  store.filterMap (fun e =>
    match e with
    | .json _ (.valid si) => some si
    | _ => none)

/-- Ordering used by `infos.sort(key=timestamp, reverse=True)`: newest first. -/
def tsGE (a b : SaveInfo) : Prop := b.timestamp ≤ a.timestamp

instance : DecidableRel tsGE := fun a b => Nat.decLe b.timestamp a.timestamp

instance : IsTotal SaveInfo tsGE :=
  ⟨fun a b => (Nat.le_total b.timestamp a.timestamp).elim Or.inl Or.inr⟩

instance : IsTrans SaveInfo tsGE :=
  ⟨fun _ _ _ h1 h2 => le_trans h2 h1⟩

/-- `get_saveinfos`: parse every sidecar, sort newest first, and move the undo
snapshots to the front. -/
def get_saveinfos (store : Store) : List SaveInfo :=
  let sorted := (rawInfos store).insertionSort tsGE
  sorted.filter (fun i => i.is_undo) ++ sorted.filter (fun i => !i.is_undo)

/-- `get_saveinfos` together with the store it leaves behind.  The corrupt-JSON
branch of `_file_to_saveinfo` calls `os.remove(j)` where `j` is the open file
OBJECT, not its path; that raises `TypeError`, which the inner
`except OSError: pass` does not catch, so the corrupt sidecar is never deleted
and the store is returned unchanged (the `TypeError` is then swallowed by
`attempt_saveinfo`'s `except Exception`, which drops the snapshot from the
listing). -/
def get_saveinfos_run (store : Store) : List SaveInfo × Store :=
  (get_saveinfos store, store)

/-- `_get_newest_save`: first listed non-undo snapshot of the game. -/
def _get_newest_save (game_id : Nat) (store : Store) : Option SaveInfo :=
  (get_saveinfos store).find? (fun x => x.game_info.game_id = game_id && !x.is_undo)

/-- `_cull_old_saves`: keep the newest undo and the newest `max_saves` regular
snapshots, delete the rest.  The dry-run flag is deliberately ignored here (the
source comments the check out). -/
def _cull_old_saves (e : Engine) (store : Store) : Store :=
  let infos := get_saveinfos store
  let undos := infos.filter (fun i => i.is_undo)
  let saves := infos.filter (fun i => !i.is_undo)
  (undos.drop 1 ++ saves.drop e.max_saves).foldl
    (fun st si => _delete_savedir si.filename st) store

/-- `_get_directory_timestamp`: max mtime (ms) of the manifest-listed files
that exist under `src`; `max()` of an empty sequence raises `ValueError`. -/
def _get_directory_timestamp (gfs : GFs) (rcf : List String) (src : String) :
    Except PyExc Nat :=
  let ts := rcf.filterMap (fun k =>
    match gfs (joinPath src k) with
    | .file t _ => some t
    | .absent => none)
  match ts with
  | [] => .error .valueError
  | t :: rest => .ok (rest.foldl max t)

/-- The per-root timestamp collection of `_get_rcf_timestamp` (Python forces
the lazy `map` left to right, so the first failing directory raises). -/
def dirTimesLoop (gfs : GFs) (rcf : List String) :
    List (String × String) → Except PyExc (List Nat)
  | [] => .ok []
  | r :: rest =>
    match _get_directory_timestamp gfs rcf r.1 with
    | .error ex => .error ex
    | .ok t =>
      match dirTimesLoop gfs rcf rest with
      | .error ex => .error ex
      | .ok ts => .ok (t :: ts)

/-- `_get_rcf_timestamp`: max of the per-root directory timestamps. -/
def _get_rcf_timestamp (gfs : GFs) (rcf : List String) (roots : List (String × String)) :
    Except PyExc Nat :=
  match dirTimesLoop gfs rcf roots with
  | .error ex => .error ex
  | .ok [] => .error .valueError
  | .ok (t :: rest) => .ok (rest.foldl max t)

/-- The generated snapshot directory name. -/
def mkFilename (is_undo : Bool) (game_id ts : Nat) : String :=
  (if is_undo then "undo" else "save") ++ "_" ++ toString game_id ++ "_" ++ toString ts

/-- `_create_savedir`: allocate the SaveInfo stamped with the current time and
write the sidecar JSON (skipped when the engine-level dry-run flag is set). -/
def _create_savedir (e : Engine) (gi : GameInfo) (now : Nat) (is_undo : Bool)
    (store : Store) : SaveInfo × Store :=
  let si : SaveInfo :=
    { game_info := gi, timestamp := now, filename := mkFilename is_undo gi.game_id now,
      is_undo := is_undo }
  (si, if e.dry_run then store else store ++ [.json si.filename (.valid si)])

/-- `_copy_by_rcf`: copy every manifest-listed file that exists under `src`
into payload directory `dest`, preserving the relative path; an unreadable
file makes `shutil.copy2` raise. -/
def _copy_by_rcf (e : Engine) (gfs : GFs) (src dest : String) :
    List String → Store → Store × Option PyExc
  | [], st => (st, none)
  | k :: ks, st =>
    match gfs (joinPath src k) with
    | .absent => _copy_by_rcf e gfs src dest ks st
    | .file _ ok =>
      if e.dry_run then _copy_by_rcf e gfs src dest ks st
      else if ok then _copy_by_rcf e gfs src dest ks (st ++ [.pfile dest k])
      else (st, some .osError)

/-- The per-root loop of `_copy_all_to_saveinfo`. -/
def copyRootsLoop (e : Engine) (gfs : GFs) (rcf : List String) (fname : String) :
    List (String × String) → Store → Store × Option PyExc
  | [], st => (st, none)
  | (src, suffix) :: rest, st =>
    match _copy_by_rcf e gfs src (fname ++ suffix) rcf st with
    | (st', none) => copyRootsLoop e gfs rcf fname rest st'
    | (st', some ex) => (st', some ex)

/-- `_copy_all_to_saveinfo`: copy each save root into its suffixed payload
directory; on any exception delete the partial snapshot (sidecar + payload)
and re-raise. -/
def _copy_all_to_saveinfo (e : Engine) (gfs : GFs) (si : SaveInfo) (rcf : List String)
    (store : Store) : Store × Option PyExc :=
  match copyRootsLoop e gfs rcf si.filename si.game_info.roots store with
  | (st, none) => (st, none)
  | (st, some ex) => (_delete_savedir si.filename st, some ex)

/-- The value `do_backup` returns when it does not raise: `None` ("nothing to
back up" or unsupported), the `{}` dry-run placeholder, or the new SaveInfo. -/
inductive BackupResult
  | noBackup
  | wouldBackup
  | backedUp (si : SaveInfo)
  deriving DecidableEq

/-- The change-detection step of `do_backup`: `ok true` means "skip, nothing
changed"; reading the mtimes can raise `ValueError`. -/
def backupSkip (e : Engine) (gfs : GFs) (gi : GameInfo) (rcf : List String)
    (store : Store) : Except PyExc Bool :=
  match _get_newest_save gi.game_id store with
  | none => .ok false
  | some n =>
    if e.ignore_unchanged then
      match _get_rcf_timestamp gfs rcf gi.roots with
      | .error ex => .error ex
      | .ok t => .ok (decide (n.timestamp > t))
    else .ok false

/-- `do_backup`, specialised to a title whose save roots are already cached
(so `_read_rcf` returns the parsed manifest `rcf` unchanged, see
`_read_rcf` below).  Returns the final store and the result or exception. -/
def do_backup (e : Engine) (gfs : GFs) (gi : GameInfo) (rcf : List String)
    (now : Nat) (dry_run : Bool) (store : Store) :
    Store × Except PyExc BackupResult :=
  if rcf = [] then (store, .ok .noBackup)
  else
    match backupSkip e gfs gi rcf store with
    | .error ex => (store, .error ex)
    | .ok true => (store, .ok .noBackup)
    | .ok false =>
      if dry_run then (store, .ok .wouldBackup)
      else
        let cs := _create_savedir e gi now false store
        match _copy_all_to_saveinfo e gfs cs.1 rcf cs.2 with
        | (st2, some ex) => (st2, .error ex)
        | (st2, none) => (_cull_old_saves e st2, .ok (.backedUp cs.1))

/-- `do_restore`, store side (the copy-out phase writes only into the game's
save roots, never into the store): take an undo snapshot first unless restoring
from an undo, then cull. -/
def do_restore (e : Engine) (gfs : GFs) (si : SaveInfo) (rcf : List String)
    (now : Nat) (store : Store) : Store × Option PyExc :=
  if rcf = [] then (store, some .assertionError)
  else
    if si.is_undo then (_cull_old_saves e store, none)
    else
      let cs := _create_savedir e si.game_info now true store
      match _copy_all_to_saveinfo e gfs cs.1 rcf cs.2 with
      | (st1, some ex) => (st1, some ex)
      | (st1, none) => (_cull_old_saves e st1, none)

/-- `do_delete`: delete the snapshot's files by name glob. -/
def do_delete (si : SaveInfo) (store : Store) : Store :=
  _delete_savedir si.filename store

/-- `_rcf_is_valid`: at least one manifest entry names an existing regular
file under the candidate root. -/
def _rcf_is_valid (gfs : GFs) (root : String) (rcf : List String) : Bool :=
  rcf.any (fun f =>
    match gfs (joinPath root f) with
    | .file _ _ => true
    | .absent => false)

/-- `_read_rcf` (lines 437-464), parameterised by the parsed manifest `rcf` and
by the root candidates `_find_save_games` would produce.  When
`save_games_roots` is already cached on the game_info the manifest is returned
unchanged and NO validation runs; only on first resolution are candidates
filtered through `_rcf_is_valid` and the suffix dict built. -/
def _read_rcf (gfs : GFs) (rcf : List String) (candidates : List String)
    (cached : Option (List (String × String))) :
    Option (List String) × Option (List (String × String)) :=
  match cached with
  | some rs => (some rcf, some rs)
  | none =>
    if candidates = [] then (none, none)
    else
      let valid := candidates.filter (fun r => _rcf_is_valid gfs r rcf)
      if valid = [] then (none, none)
      else
        (some rcf,
          some (valid.enum.map (fun p => (p.2, if p.1 = 0 then "" else "_" ++ toString p.1))))

/-! ## Concrete example data used by the witnesses -/

/-- A resolved game with a single save root `r` (empty suffix). -/
def giEx : GameInfo := ⟨1, [("r", "")]⟩

def siEx12 : SaveInfo := ⟨giEx, 12, "save_1_12", false⟩

def siEx123 : SaveInfo := ⟨giEx, 123, "save_1_123", false⟩

def uEx5 : SaveInfo := ⟨giEx, 5, "undo_1_5", true⟩

/-- A store holding two regular snapshots (one of whose timestamps is a
digit-extension of the other's) and one undo snapshot. -/
def storeEx : Store :=
  [.json "save_1_12" (.valid siEx12), .pfile "save_1_12" "f",
   .json "save_1_123" (.valid siEx123), .json "undo_1_5" (.valid uEx5)]

/-- Default engine configuration: change detection on, keep 50, real writes. -/
def engEx : Engine := ⟨false, 50, true⟩

/-- A game filesystem with the single manifest file present and readable. -/
def gfsEx : GFs := fun p => if p = "r/f" then .file 10 true else .absent

/-- A game filesystem where the manifest file exists (modified at 1000 ms, so
newer than every snapshot of `storeEx`) but copying it raises. -/
def gfsExBad : GFs := fun p => if p = "r/f" then .file 1000 false else .absent

/-- A game filesystem with no files at all (e.g. unmounted storage). -/
def gfsExEmpty : GFs := fun _ => .absent

/-- A store with one corrupt sidecar among the valid snapshots of `storeEx`. -/
def storeC3 : Store :=
  [.json "save_1_50" .corrupt, .json "save_1_12" (.valid siEx12),
   .json "save_1_123" (.valid siEx123), .json "undo_1_5" (.valid uEx5)]

/-! ## Store-state trace of `do_backup` (for the temporal ordering claim)

`do_backup_trace` lists the snapshot-store states a (cached-roots) backup run
passes through: the initial store, the store right after `_create_savedir`
writes the sidecar JSON, one state per payload file copied, and the final
state (after culling, or after the failure cleanup). -/

def copyByRcfTrace (e : Engine) (gfs : GFs) (src dest : String) :
    List String → Store → List Store
  | [], _ => []
  | k :: ks, st =>
    match gfs (joinPath src k) with
    | .absent => copyByRcfTrace e gfs src dest ks st
    | .file _ ok =>
      if e.dry_run then copyByRcfTrace e gfs src dest ks st
      else if ok then
        (st ++ [Entry.pfile dest k]) ::
          copyByRcfTrace e gfs src dest ks (st ++ [Entry.pfile dest k])
      else []

def copyRootsTrace (e : Engine) (gfs : GFs) (rcf : List String) (fname : String) :
    List (String × String) → Store → List Store
  | [], _ => []
  | (src, suffix) :: rest, st =>
    match _copy_by_rcf e gfs src (fname ++ suffix) rcf st with
    | (st', none) =>
      copyByRcfTrace e gfs src (fname ++ suffix) rcf st ++
        copyRootsTrace e gfs rcf fname rest st'
    | (_, some _) => copyByRcfTrace e gfs src (fname ++ suffix) rcf st

def do_backup_trace (e : Engine) (gfs : GFs) (gi : GameInfo) (rcf : List String)
    (now : Nat) (dry_run : Bool) (store : Store) : List Store :=
  if rcf = [] then [store]
  else
    match backupSkip e gfs gi rcf store with
    | .error _ => [store]
    | .ok true => [store]
    | .ok false =>
      if dry_run then [store]
      else
        let cs := _create_savedir e gi now false store
        let ctr := copyRootsTrace e gfs rcf cs.1.filename cs.1.game_info.roots cs.2
        match copyRootsLoop e gfs rcf cs.1.filename cs.1.game_info.roots cs.2 with
        | (st2, none) => store :: cs.2 :: (ctr ++ [_cull_old_saves e st2])
        | (st2, some _) => store :: cs.2 :: (ctr ++ [_delete_savedir cs.1.filename st2])

/-- The sorted (newest-first) parse of the store's sidecars. -/
def sortedInfos (store : Store) : List SaveInfo := (rawInfos store).insertionSort tsGE

/-- The undo snapshots, newest first. -/
def undosOf (store : Store) : List SaveInfo :=
  (sortedInfos store).filter (fun i => i.is_undo)

/-- The regular snapshots, newest first. -/
def savesOf (store : Store) : List SaveInfo :=
  (sortedInfos store).filter (fun i => !i.is_undo)

/-- The snapshots culling deletes: all undos but the newest, all regular
snapshots beyond the newest `max_saves`. -/
def deletedOf (e : Engine) (store : Store) : List SaveInfo :=
  (undosOf store).drop 1 ++ (savesOf store).drop e.max_saves

/-- Keep-count 2 engine for the retention example. -/
def engSmall : Engine := ⟨false, 2, true⟩

/-- Four regular snapshots and two undos of one title, store order scrambled
and one payload directory present. -/
def storeC5 : Store :=
  [.json "save_1_10" (.valid ⟨giEx, 10, "save_1_10", false⟩),
   .json "undo_1_5" (.valid ⟨giEx, 5, "undo_1_5", true⟩),
   .json "save_1_30" (.valid ⟨giEx, 30, "save_1_30", false⟩),
   .json "save_1_40" (.valid ⟨giEx, 40, "save_1_40", false⟩),
   .json "undo_1_7" (.valid ⟨giEx, 7, "undo_1_7", true⟩),
   .json "save_1_20" (.valid ⟨giEx, 20, "save_1_20", false⟩),
   .pfile "save_1_10" "f"]

/-! ## Supporting lemmas and the claim theorems -/

/-- An example text filesystem holding one manifest file with a duplicated key
and a junk line. -/
def vcfExampleFs : TextFs := fun p =>
  if p = "cfg.vdf" then
    some ["\"a\" \"1\"".toList, "junk".toList, "\"a\" \"2\"".toList, "\"b\" \"3\"".toList]
  else none

/-! ### Helper lemmas about white space scanning and quote splitting -/

theorem takeWhile_of_all {p : Char → Bool} {l : List Char} (h : l.all p) :
    l.takeWhile p = l ∧ l.dropWhile p = [] := by
  induction l with
  | nil => simp
  | cons a as ih =>
    simp only [List.all_cons, Bool.and_eq_true] at h
    simp [List.takeWhile_cons, List.dropWhile_cons, h.1, (ih h.2).1, (ih h.2).2]

theorem takeWhile_all_append {p : Char → Bool} {ws : List Char} {c : Char} (t : List Char)
    (hws : ws.all p) (hc : p c = false) :
    (ws ++ c :: t).takeWhile p = ws ∧ (ws ++ c :: t).dropWhile p = c :: t := by
  induction ws with
  | nil => simp [List.takeWhile_cons, List.dropWhile_cons, hc]
  | cons a as ih =>
    simp only [List.all_cons, Bool.and_eq_true] at hws
    have h2 := ih hws.2
    simp [List.cons_append, List.takeWhile_cons, List.dropWhile_cons, hws.1, h2.1, h2.2]

theorem quoteSplits_qfree {s : List Char} (h : '"' ∉ s) : quoteSplits s = [] := by
  induction s with
  | nil => rfl
  | cons c rest ih =>
    simp only [List.mem_cons, not_or] at h
    have hc : ¬ c = '"' := fun hh => h.1 hh.symm
    simp [quoteSplits, hc, ih h.2]

theorem quoteSplits_append {a : List Char} (b : List Char) (h : '"' ∉ a) :
    quoteSplits (a ++ '"' :: b) =
      (a, b) :: (quoteSplits b).map (fun p => (a ++ '"' :: p.1, p.2)) := by
  induction a with
  | nil => simp [quoteSplits]
  | cons c as ih =>
    simp only [List.mem_cons, not_or] at h
    have hc : ¬ c = '"' := fun hh => h.1 hh.symm
    simp [List.cons_append, quoteSplits, hc, ih h.2, List.map_map, Function.comp]

theorem quoteSplits_mem {s : List Char} {p : List Char × List Char}
    (h : p ∈ quoteSplits s) : s = p.1 ++ '"' :: p.2 := by
  induction s generalizing p with
  | nil => simp [quoteSplits] at h
  | cons c rest ih =>
    simp only [quoteSplits] at h
    rcases List.mem_append.mp h with h1 | h2
    · by_cases hc : c = '"'
      · subst hc
        simp only [if_true, List.mem_singleton] at h1
        subst h1
        rfl
      · simp [hc] at h1
    · rcases List.mem_map.mp h2 with ⟨q, hq, rfl⟩
      simp [ih hq]

theorem dropWhile_cons_parts {p : Char → Bool} :
    ∀ {l : List Char} {c : Char} {t : List Char}, l.dropWhile p = c :: t →
      p c = false ∧ c ∈ l ∧ l = l.takeWhile p ++ c :: t
  | [], c, t, h => by simp at h
  | a :: as, c, t, h => by
    by_cases hpa : p a = true
    · rw [List.dropWhile_cons_of_pos hpa] at h
      obtain ⟨h1, h2, h3⟩ := dropWhile_cons_parts h
      refine ⟨h1, List.mem_cons_of_mem a h2, ?_⟩
      rw [List.takeWhile_cons_of_pos hpa, List.cons_append]
      exact congrArg (a :: ·) h3
    · rw [List.dropWhile_cons_of_neg hpa] at h
      cases h
      refine ⟨by simpa using hpa, List.mem_cons_self _ _, ?_⟩
      rw [List.takeWhile_cons_of_neg hpa, List.nil_append]

theorem all_space_qfree {l : List Char} (h : l.all isSpaceC) : '"' ∉ l := by
  intro hm
  have := List.all_eq_true.mp h _ hm
  exact absurd this (by decide)

theorem matchTail_allspace {s : List Char} (h : s.all isSpaceC) : matchTail s = none := by
  have ht := takeWhile_of_all (p := isSpaceC) h
  simp only [matchTail, ht.1, ht.2]
  cases s with
  | nil => rfl
  | cons c t => rfl

/-- The continuation fails when started at the second quote of a well-formed
line: the remaining input is `v ++ '"' :: ws3` with `v` quote-free. -/
theorem matchTail_candB {v ws3 : List Char} (hvq : '"' ∉ v) (hws3 : ws3.all isSpaceC) :
    matchTail (v ++ '"' :: ws3) = none := by
  have hvsplit := (List.takeWhile_append_dropWhile (p := isSpaceC) (l := v)).symm
  cases hd : v.dropWhile isSpaceC with
  | nil =>
    have hv : v.all isSpaceC := by
      rw [List.all_eq_true]
      intro x hx
      by_contra hpx
      have : v.dropWhile isSpaceC ≠ [] := by
        intro hnil
        exact absurd (List.dropWhile_eq_nil_iff.mp hnil x hx) hpx
      exact this hd
    have ht := takeWhile_all_append (p := isSpaceC) ws3 hv (show isSpaceC '"' = false by decide)
    simp only [matchTail, ht.1, ht.2, if_true, quoteSplits_qfree (all_space_qfree hws3)]
    simp
  | cons c v2 =>
    obtain ⟨hcns, hcv, hveq⟩ := dropWhile_cons_parts hd
    have hcq : ¬ c = '"' := fun hh => hvq (hh ▸ hcv)
    have hta : (v.takeWhile isSpaceC).all isSpaceC := by
      rw [List.all_eq_true]
      intro x hx
      exact List.mem_takeWhile_imp hx
    have ht := takeWhile_all_append (p := isSpaceC) (v2 ++ '"' :: ws3) hta hcns
    rw [hveq]
    simp only [matchTail, List.append_assoc, List.cons_append, ht.1, ht.2, hcq, if_false]
    simp

/-- The continuation succeeds when started at the first quote of a well-formed
line and extracts exactly the value group. -/
theorem matchTail_candA {ws2 v ws3 : List Char} (hws2 : ws2.all isSpaceC) (hws2ne : ws2 ≠ [])
    (hws3 : ws3.all isSpaceC) (hv : v ≠ []) (hvq : '"' ∉ v) (hvnl : '\n' ∉ v) :
    matchTail (ws2 ++ '"' :: (v ++ '"' :: ws3)) = some v := by
  have ht := takeWhile_all_append (p := isSpaceC) (v ++ '"' :: ws3) hws2
    (show isSpaceC '"' = false by decide)
  have hnv : noNL v = true := by
    rw [noNL, List.all_eq_true]
    intro x hx
    have : x ≠ '\n' := fun hh => hvnl (hh ▸ hx)
    simpa using this
  have hvE : v.isEmpty = false := by
    cases v with
    | nil => exact absurd rfl hv
    | cons a t => rfl
  simp only [matchTail, ht.1, ht.2, if_true, quoteSplits_append _ hvq,
    quoteSplits_qfree (all_space_qfree hws3), List.map_nil, List.reverse_cons,
    List.reverse_nil, List.nil_append, List.find?_cons]
  simp [hvE, hnv, hws3, hws2ne, List.isEmpty_eq_true]

/-- A line of the well-formed `"key" "value"` shape (quote-free, newline-free key
and value) matches and extracts exactly that key and value. -/
theorem lineKV_wf (ws1 k ws2 v ws3 : List Char)
    (h1 : ws1.all isSpaceC = true) (h2 : ws2.all isSpaceC = true)
    (h3 : ws3.all isSpaceC = true) (hws2 : ws2 ≠ []) (hk : k ≠ []) (hv : v ≠ [])
    (hkq : '"' ∉ k) (hvq : '"' ∉ v) (hknl : '\n' ∉ k) (hvnl : '\n' ∉ v) :
    lineKV (ws1 ++ '"' :: (k ++ '"' :: (ws2 ++ '"' :: (v ++ '"' :: ws3)))) = some (k, v) := by
  have hdrop := takeWhile_all_append (p := isSpaceC)
    (k ++ '"' :: (ws2 ++ '"' :: (v ++ '"' :: ws3))) h1 (show isSpaceC '"' = false by decide)
  have hkE : k.isEmpty = false := by
    cases k with
    | nil => exact absurd rfl hk
    | cons a t => rfl
  have hnk : noNL k = true := by
    rw [noNL, List.all_eq_true]
    intro x hx
    have : x ≠ '\n' := fun hh => hknl (hh ▸ hx)
    simpa using this
  have hsplitsS : quoteSplits (ws2 ++ '"' :: (v ++ '"' :: ws3)) =
      [(ws2, v ++ '"' :: ws3), (ws2 ++ '"' :: v, ws3)] := by
    rw [quoteSplits_append _ (all_space_qfree h2), quoteSplits_append _ hvq,
      quoteSplits_qfree (all_space_qfree h3)]
    rfl
  have hmA := matchTail_candA h2 hws2 h3 hv hvq hvnl
  have hmB := matchTail_candB hvq h3
  have hmC := matchTail_allspace h3
  simp only [lineKV, hdrop.2, if_true, quoteSplits_append _ hkq, hsplitsS]
  simp only [List.map_cons, List.map_nil, List.reverse_cons, List.reverse_nil,
    List.nil_append, List.cons_append, List.append_assoc]
  simp only [List.find?_cons, hmA, hmB, hmC, Option.isSome_none, Bool.and_false,
    Option.isSome_some, Bool.and_true, hkE, Bool.not_false, hnk, Bool.and_self]
  simp [hmA]

/-- Soundness of the matcher: any successful match decomposes the line into the
quoted key/value shape with white space around. -/
theorem lineKV_sound {s k v : List Char} (h : lineKV s = some (k, v)) :
    ∃ ws1 ws2 ws3, s = ws1 ++ '"' :: (k ++ '"' :: (ws2 ++ '"' :: (v ++ '"' :: ws3))) ∧
      ws1.all isSpaceC = true ∧ ws2.all isSpaceC = true ∧ ws3.all isSpaceC = true ∧
      ws2 ≠ [] ∧ k ≠ [] ∧ v ≠ [] := by
  unfold lineKV at h
  cases hdw : s.dropWhile isSpaceC with
  | nil => rw [hdw] at h; exact absurd h (by simp)
  | cons c r2 =>
    rw [hdw] at h
    dsimp only at h
    by_cases hc : c = '"'
    · rw [if_pos hc] at h
      subst hc
      obtain ⟨hqns, _, hsplit⟩ := dropWhile_cons_parts hdw
      set ws1 := s.takeWhile isSpaceC with hws1def
      have hws1 : ws1.all isSpaceC = true := by
        rw [List.all_eq_true]
        intro x hx
        exact List.mem_takeWhile_imp hx
      cases hfind : (quoteSplits r2).reverse.find?
          (fun p => !p.1.isEmpty && noNL p.1 && (matchTail p.2).isSome) with
      | none => rw [hfind] at h; exact absurd h (by simp)
      | some p =>
        rw [hfind] at h
        simp only [Option.some_bind] at h
        have hmem : p ∈ quoteSplits r2 := by
          have := List.mem_of_find?_eq_some hfind
          exact List.mem_reverse.mp this
        have hpred := List.find?_some hfind
        simp only [Bool.and_eq_true, Bool.not_eq_true', List.isEmpty_eq_false] at hpred
        have hr2 : r2 = p.1 ++ '"' :: p.2 := quoteSplits_mem hmem
        cases hmt : matchTail p.2 with
        | none => rw [hmt] at h; exact absurd h (by simp)
        | some g2 =>
          rw [hmt] at h
          simp only [Option.map_some', Option.some_inj] at h
          have hk1 : p.1 = k := congrArg Prod.fst h
          have hv1 : g2 = v := congrArg Prod.snd h
          unfold matchTail at hmt
          by_cases hwse : (p.2.takeWhile isSpaceC).isEmpty = true
          · rw [if_pos hwse] at hmt; exact absurd hmt (by simp)
          · rw [if_neg hwse] at hmt
            cases hdw2 : p.2.dropWhile isSpaceC with
            | nil => rw [hdw2] at hmt; exact absurd hmt (by simp)
            | cons c2 r3 =>
              rw [hdw2] at hmt
              dsimp only at hmt
              by_cases hc2 : c2 = '"'
              · rw [if_pos hc2] at hmt
                subst hc2
                obtain ⟨_, _, hsplit2⟩ := dropWhile_cons_parts hdw2
                set ws2 := p.2.takeWhile isSpaceC with hws2def
                have hws2all : ws2.all isSpaceC = true := by
                  rw [List.all_eq_true]
                  intro x hx
                  exact List.mem_takeWhile_imp hx
                have hws2ne : ws2 ≠ [] := by
                  intro hnil
                  rw [hnil] at hwse
                  exact hwse rfl
                cases hfind2 : (quoteSplits r3).reverse.find?
                    (fun p => !p.1.isEmpty && noNL p.1 && p.2.all isSpaceC) with
                | none => rw [hfind2] at hmt; exact absurd hmt (by simp)
                | some q =>
                  rw [hfind2] at hmt
                  simp only [Option.map_some', Option.some_inj] at hmt
                  have hmem2 : q ∈ quoteSplits r3 := by
                    have := List.mem_of_find?_eq_some hfind2
                    exact List.mem_reverse.mp this
                  have hpred2 := List.find?_some hfind2
                  simp only [Bool.and_eq_true, Bool.not_eq_true', List.isEmpty_eq_false] at hpred2
                  have hr3 : r3 = q.1 ++ '"' :: q.2 := quoteSplits_mem hmem2
                  refine ⟨ws1, ws2, q.2, ?_, hws1, hws2all, hpred2.2, hws2ne, ?_, ?_⟩
                  · have hs : s = ws1 ++ '"' :: r2 := hsplit
                    rw [hs, hr2, hk1, hsplit2, hr3, hmt, hv1]
                  · rw [← hk1]; exact hpred.1.1
                  · rw [← hv1, ← hmt]; exact hpred2.1.1
              · rw [if_neg hc2] at hmt; exact absurd hmt (by simp)
    · rw [if_neg hc] at h; exact absurd h (by simp)

/-! ### Dict lemmas: `upsert` and the line fold -/

theorem lookupKV_upsert (k v k' : List Char) (d : List (List Char × List Char)) :
    lookupKV (upsert k v d) k' = if k' = k then some v else lookupKV d k' := by
  induction d with
  | nil =>
    by_cases hk : k' = k
    · simp [upsert, lookupKV, List.find?_cons, hk]
    · have h2 : ¬ k = k' := fun h => hk h.symm
      simp [upsert, lookupKV, List.find?_cons, hk, h2]
  | cons hd tl ih =>
    by_cases hh : hd.1 = k
    · by_cases hk : k' = k
      · simp [upsert, hh, lookupKV, List.find?_cons, hk]
      · have h2 : ¬ k = k' := fun h => hk h.symm
        simp [upsert, hh, lookupKV, List.find?_cons, hk, h2]
    · simp only [upsert, hh, if_false]
      by_cases hk2 : hd.1 = k'
      · have hkk : ¬ k' = k := fun h => hh (hk2.trans h)
        simp [lookupKV, List.find?_cons, hk2, hkk]
      · simp only [lookupKV, List.find?_cons] at ih ⊢
        simpa [hk2] using ih

theorem lastVal_cons (q : List Char × List Char) (ps : List (List Char × List Char))
    (k : List Char) :
    lastVal (q :: ps) k =
      (lastVal ps k).or (if q.1 = k then some q.2 else none) := by
  simp only [lastVal, List.reverse_cons, List.find?_append]
  cases hf : ps.reverse.find? (fun p => decide (p.1 = k)) with
  | none =>
    by_cases hq : q.1 = k <;>
      simp [List.find?_cons, hq, Option.or]
  | some r => simp [Option.or]

/-- The line fold of `_parse_vcf` looks up to the last matching line, falling
back to the starting dict. -/
theorem lookupKV_foldl (lines : List (List Char)) (d : List (List Char × List Char))
    (k : List Char) :
    lookupKV (lines.foldl vcfStep d) k =
      (lastVal (lines.filterMap lineKV) k).or (lookupKV d k) := by
  induction lines generalizing d with
  | nil => simp [lastVal]
  | cons line rest ih =>
    rw [List.foldl_cons]
    cases hkv : lineKV line with
    | none =>
      rw [show vcfStep d line = d by simp [vcfStep, hkv]]
      simp [List.filterMap_cons, hkv, ih]
    | some p =>
      have hstep : vcfStep d line = upsert p.1 p.2 d := by simp [vcfStep, hkv]
      have hfm : List.filterMap lineKV (line :: rest) = p :: List.filterMap lineKV rest := by
        simp [List.filterMap_cons, hkv]
      rw [hstep, ih, hfm, lastVal_cons, lookupKV_upsert, Option.or_assoc]
      by_cases hk : k = p.1
      · have h2 : p.1 = k := hk.symm
        simp [if_pos hk, if_pos h2]
      · have h2 : ¬ p.1 = k := fun h => hk h.symm
        simp [if_neg hk, if_neg h2]

/-! ### Claim C8 -/

/-- C8: for every readable file, `_parse_vcf` returns a mapping with exactly
one entry per distinct key occurring in lines of the `"key" "value"` form
(arbitrary surrounding white space), taking the value from the last such line
for that key and ignoring all other lines; a missing file yields the empty
mapping without raising (the `FileNotFoundError` is caught).  Conjuncts:
(1) missing file gives the empty dict; (2) lookup in the parsed dict equals the
value of the last matching line; (3) every well-formed `"k" "v"` line matches
with exactly that key and value; (4) every matching line has the quoted
key/value shape. -/
theorem c8_parse_vcf_contract :
    (∀ fs path, fs path = none → _parse_vcf fs path = []) ∧
    (∀ fs path lines, fs path = some lines →
      ∀ k, lookupKV (_parse_vcf fs path) k = lastVal (lines.filterMap lineKV) k) ∧
    (∀ ws1 k ws2 v ws3 : List Char,
      ws1.all isSpaceC = true → ws2.all isSpaceC = true → ws3.all isSpaceC = true →
      ws2 ≠ [] → k ≠ [] → v ≠ [] → '"' ∉ k → '"' ∉ v → '\n' ∉ k → '\n' ∉ v →
      lineKV (ws1 ++ '"' :: (k ++ '"' :: (ws2 ++ '"' :: (v ++ '"' :: ws3)))) = some (k, v)) ∧
    (∀ s k v : List Char, lineKV s = some (k, v) →
      ∃ ws1 ws2 ws3, s = ws1 ++ '"' :: (k ++ '"' :: (ws2 ++ '"' :: (v ++ '"' :: ws3))) ∧
        ws1.all isSpaceC = true ∧ ws2.all isSpaceC = true ∧ ws3.all isSpaceC = true ∧
        ws2 ≠ [] ∧ k ≠ [] ∧ v ≠ []) := by
  refine ⟨?_, ?_, ?_, ?_⟩
  · intro fs path h
    unfold _parse_vcf
    rw [h]
  · intro fs path lines h k
    unfold _parse_vcf
    rw [h, lookupKV_foldl]
    simp [lookupKV]
  · exact fun ws1 k ws2 v ws3 h1 h2 h3 h4 h5 h6 h7 h8 h9 h10 =>
      lineKV_wf ws1 k ws2 v ws3 h1 h2 h3 h4 h5 h6 h7 h8 h9 h10
  · exact fun s k v h => lineKV_sound h

theorem c8_parse_vcf_contract_witness :
    _parse_vcf vcfExampleFs "missing.vdf" = [] ∧
    lookupKV (_parse_vcf vcfExampleFs "cfg.vdf") "a".toList =
      lastVal ((["\"a\" \"1\"".toList, "junk".toList, "\"a\" \"2\"".toList,
        "\"b\" \"3\"".toList]).filterMap lineKV) "a".toList ∧
    lineKV ([' '] ++ '"' :: (['k'] ++ '"' :: ([' '] ++ '"' :: (['v'] ++ '"' :: [' '])))) =
      some (['k'], ['v']) ∧
    (∃ ws1 ws2 ws3, (" \"k\" \"v\" ".toList : List Char) =
        ws1 ++ '"' :: (['k'] ++ '"' :: (ws2 ++ '"' :: (['v'] ++ '"' :: ws3))) ∧
      ws1.all isSpaceC = true ∧ ws2.all isSpaceC = true ∧ ws3.all isSpaceC = true ∧
      ws2 ≠ [] ∧ ['k'] ≠ [] ∧ ['v'] ≠ []) := by
  refine ⟨c8_parse_vcf_contract.1 vcfExampleFs "missing.vdf" rfl,
    c8_parse_vcf_contract.2.1 vcfExampleFs "cfg.vdf" _ rfl "a".toList,
    c8_parse_vcf_contract.2.2.1 [' '] ['k'] [' '] ['v'] [' ']
      (by decide) (by decide) (by decide) (by decide) (by decide) (by decide)
      (by decide) (by decide) (by decide) (by decide),
    c8_parse_vcf_contract.2.2.2 (" \"k\" \"v\" ".toList) ['k'] ['v'] (by decide)⟩

/-! ### Lemmas about `firstDiffIdx`, `lcp2` and the scan -/

theorem firstDiffIdx_self : ∀ (a : List Char), firstDiffIdx a a = none
  | [] => rfl
  | x :: xs => by simp [firstDiffIdx, firstDiffIdx_self xs]

theorem firstDiff_lt : ∀ {a b : List Char} {i : Nat}, firstDiffIdx a b = some i →
    i < a.length ∧ i < b.length
  | x :: xs, y :: ys, i, h => by
    by_cases hxy : x = y
    · simp only [firstDiffIdx, hxy, ne_eq, not_true_eq_false, if_false] at h
      cases hin : firstDiffIdx xs ys with
      | none => rw [hin] at h; exact absurd h (by simp)
      | some j =>
        rw [hin] at h
        simp only [Option.map_some', Option.some_inj] at h
        have := firstDiff_lt hin
        subst h
        simp only [List.length_cons]
        omega
    · simp only [firstDiffIdx, ne_eq, hxy, not_false_eq_true, if_true,
        Option.some_inj] at h
      subst h
      simp
  | [], b, i, h => by simp [firstDiffIdx] at h
  | x :: xs, [], i, h => by simp [firstDiffIdx] at h

theorem firstDiff_take_eq : ∀ {a b : List Char} {i : Nat}, firstDiffIdx a b = some i →
    ∀ j, j ≤ i → a.take j = b.take j
  | x :: xs, y :: ys, i, h, j, hj => by
    by_cases hxy : x = y
    · simp only [firstDiffIdx, hxy, ne_eq, not_true_eq_false, if_false] at h
      cases hin : firstDiffIdx xs ys with
      | none => rw [hin] at h; exact absurd h (by simp)
      | some i' =>
        rw [hin] at h
        simp only [Option.map_some', Option.some_inj] at h
        cases j with
        | zero => rfl
        | succ j' =>
          have hj' : j' ≤ i' := by omega
          simp [List.take_succ_cons, hxy, firstDiff_take_eq hin j' hj']
    · simp only [firstDiffIdx, ne_eq, hxy, not_false_eq_true, if_true,
        Option.some_inj] at h
      subst h
      interval_cases j
      rfl
  | [], b, i, h, j, hj => by simp [firstDiffIdx] at h
  | x :: xs, [], i, h, j, hj => by simp [firstDiffIdx] at h

theorem lcp2_take_firstDiff : ∀ {a b : List Char} {i : Nat},
    firstDiffIdx a b = some i → ∀ fd,
      lcp2 (a.take fd) b = a.take (min fd i) ∧ a.take (min fd i) <+: b
  | x :: xs, y :: ys, i, h, fd => by
    by_cases hxy : x = y
    · simp only [firstDiffIdx, hxy, ne_eq, not_true_eq_false, if_false] at h
      cases hin : firstDiffIdx xs ys with
      | none => rw [hin] at h; exact absurd h (by simp)
      | some i' =>
        rw [hin] at h
        simp only [Option.map_some', Option.some_inj] at h
        subst h
        cases fd with
        | zero => simp [lcp2, List.nil_prefix]
        | succ n =>
          have ihn := lcp2_take_firstDiff hin n
          constructor
          · simp only [List.take_succ_cons, lcp2, hxy, if_true,
              Nat.succ_min_succ, ihn.1]
          · rw [Nat.succ_min_succ, List.take_succ_cons]
            exact (List.cons_prefix_cons).mpr ⟨hxy, ihn.2⟩
    · simp only [firstDiffIdx, ne_eq, hxy, not_false_eq_true, if_true,
        Option.some_inj] at h
      subst h
      constructor
      · cases fd with
        | zero => simp [lcp2]
        | succ n => simp [List.take_succ_cons, lcp2, hxy]
      · simp [List.nil_prefix]
  | [], b, i, h, fd => by simp [firstDiffIdx] at h
  | x :: xs, [], i, h, fd => by simp [firstDiffIdx] at h

/-- The consecutive-pair scan computes the longest common prefix of all entries
as long as no processed pair is in the (strict or equal) prefix relation. -/
theorem scan_lcp (l : List (List Char)) : ∀ (a : List Char) (fd : Nat), fd ≤ a.length →
    List.Chain' (fun x y => firstDiffIdx x y ≠ none) (a :: l) →
    (scanPrefixLen a fd l).1.take (scanPrefixLen a fd l).2 =
      l.foldl lcp2 (a.take fd) := by
  induction l with
  | nil =>
    intro a fd hfd _
    simp [scanPrefixLen]
  | cons b t ih =>
    intro a fd hfd hch
    rw [List.chain'_cons] at hch
    obtain ⟨i, hi⟩ : ∃ i, firstDiffIdx a b = some i := by
      cases h : firstDiffIdx a b with
      | none => exact absurd h hch.1
      | some i => exact ⟨i, rfl⟩
    have hmin : (if fd > i then i else fd) = min fd i := by
      split <;> omega
    have hlt := firstDiff_lt hi
    have key := lcp2_take_firstDiff hi fd
    simp only [scanPrefixLen, hi, hmin]
    rw [List.foldl_cons, key.1, firstDiff_take_eq hi (min fd i) (Nat.min_le_right fd i)]
    exact ih b (min fd i) (le_trans (Nat.min_le_right fd i) (le_of_lt hlt.2)) hch.2

/-! ### Claim C6 -/

/-- C6 counterexample: the claim says the algorithm "computes the longest
common prefix of all manifest entry paths" and then trims/strips.  On the entry
list `["a/b/x", "a/b", "a/b/y"]` (adjacent entries in the prefix relation) with
marker `m/a/b`, the code returns `m`, while the spec-described longest-common-
prefix computation returns `m/a/b` unchanged. -/
theorem c6_common_prefix_cex :
    _find_save_root_from_autoclouds
        ["a/b/x".toList, "a/b".toList, "a/b/y".toList] "m/a/b".toList =
      some "m".toList ∧
    find_save_root_specalg
        ["a/b/x".toList, "a/b".toList, "a/b/y".toList] "m/a/b".toList =
      some "m/a/b".toList ∧
    some ("m".toList : List Char) ≠ some "m/a/b".toList := by
  exact ⟨by decide, by decide, by decide⟩

/-- C6 amended: provided no adjacent pair of manifest entries is in the prefix
relation (every consecutive pair differs at some index within their common
length), the algorithm agrees with the spec's longest-common-prefix
description; and on the spec's own example it derives `root/x`. -/
theorem c6_common_prefix_amended :
    (∀ (rcf : List (List Char)) (ac : List Char),
      List.Chain' (fun x y => firstDiffIdx x y ≠ none) rcf →
      _find_save_root_from_autoclouds rcf ac = find_save_root_specalg rcf ac) ∧
    _find_save_root_from_autoclouds
        ["a/b/save.dat".toList, "a/b/save2.dat".toList] "root/x/a/b".toList =
      some "root/x".toList := by
  constructor
  · intro rcf ac hch
    cases rcf with
    | nil => rfl
    | cons r0 rest =>
      have hstep : scanPrefixLen r0 r0.length (r0 :: rest) =
          scanPrefixLen r0 r0.length rest := by
        simp [scanPrefixLen, firstDiffIdx_self]
      have hs := scan_lcp rest r0 r0.length (le_refl _) hch
      simp only [_find_save_root_from_autoclouds, find_save_root_specalg, hstep,
        hs, List.take_length]
  · decide

theorem c6_common_prefix_amended_witness :
    _find_save_root_from_autoclouds ["a/x".toList, "a/y".toList] "m/a".toList =
      find_save_root_specalg ["a/x".toList, "a/y".toList] "m/a".toList :=
  c6_common_prefix_amended.1 ["a/x".toList, "a/y".toList] "m/a".toList (by
    rw [List.chain'_cons]
    exact ⟨by decide, List.chain'_singleton _⟩)


/-! ### Store lemmas -/

theorem strPref_append (a b : String) : strPref a (a ++ b) = true := by
  rw [strPref, List.isPrefixOf_iff_prefix]
  have : (a ++ b).toList = a.toList ++ b.toList := by
    simp [String.toList, String.data_append]
  rw [this]
  exact List.prefix_append _ _

theorem strPref_trans_append {a b : String} (h : strPref a b = true) (c : String) :
    strPref a (b ++ c) = true := by
  rw [strPref, List.isPrefixOf_iff_prefix] at h ⊢
  have : (b ++ c).toList = b.toList ++ c.toList := by
    simp [String.toList, String.data_append]
  rw [this]
  exact h.trans (List.prefix_append _ _)

theorem rawInfos_append (a b : Store) : rawInfos (a ++ b) = rawInfos a ++ rawInfos b :=
  List.filterMap_append ..

/-- Inversion of the sidecar parse used by `rawInfos`. -/
theorem rawInfos_mem_iff {store : Store} {si : SaveInfo} :
    si ∈ rawInfos store ↔ ∃ fn, Entry.json fn (.valid si) ∈ store := by
  constructor
  · intro h
    obtain ⟨en, hen, hp⟩ := List.mem_filterMap.mp h
    cases en with
    | json fn c =>
      cases c with
      | valid si' =>
        simp only [Option.some_inj] at hp
        exact ⟨fn, hp ▸ hen⟩
      | corrupt => exact absurd hp (by simp)
    | pfile d k => exact absurd hp (by simp)
  · intro ⟨fn, hfn⟩
    exact List.mem_filterMap.mpr ⟨Entry.json fn (.valid si), hfn, rfl⟩

/-- `_copy_by_rcf` only appends payload files of the destination directory. -/
theorem _copy_by_rcf_shape (e : Engine) (gfs : GFs) (src dest : String) :
    ∀ (ks : List String) (st : Store), ∃ ps : Store,
      (_copy_by_rcf e gfs src dest ks st).1 = st ++ ps ∧
      ∀ en ∈ ps, ∃ k, en = Entry.pfile dest k
  | [], st => ⟨[], by simp [_copy_by_rcf]⟩
  | k :: ks, st => by
    unfold _copy_by_rcf
    cases gfs (joinPath src k) with
    | absent => exact _copy_by_rcf_shape e gfs src dest ks st
    | file t ok =>
      by_cases hd : e.dry_run = true
      · simp only [hd, if_true]
        exact _copy_by_rcf_shape e gfs src dest ks st
      · simp only [Bool.not_eq_true] at hd
        simp only [hd, Bool.false_eq_true, if_false]
        cases ok with
        | true =>
          simp only [if_true]
          obtain ⟨ps, h1, h2⟩ := _copy_by_rcf_shape e gfs src dest ks (st ++ [.pfile dest k])
          refine ⟨Entry.pfile dest k :: ps, ?_, ?_⟩
          · rw [h1, List.append_assoc]
            rfl
          · intro en hen
            rcases List.mem_cons.mp hen with h | h
            · exact ⟨k, h⟩
            · exact h2 en h
        | false => exact ⟨[], by simp⟩

/-- The per-root copy loop only appends payload files whose directory name
extends the snapshot filename. -/
theorem copyRootsLoop_shape (e : Engine) (gfs : GFs) (rcf : List String) (fname : String) :
    ∀ (roots : List (String × String)) (st : Store), ∃ ps : Store,
      (copyRootsLoop e gfs rcf fname roots st).1 = st ++ ps ∧
      ∀ en ∈ ps, ∃ suffix k, en = Entry.pfile (fname ++ suffix) k
  | [], st => ⟨[], by simp [copyRootsLoop]⟩
  | (src, suffix) :: rest, st => by
    unfold copyRootsLoop
    obtain ⟨ps1, h1, h2⟩ := _copy_by_rcf_shape e gfs src (fname ++ suffix) rcf st
    cases hc : _copy_by_rcf e gfs src (fname ++ suffix) rcf st with
    | mk st' exc =>
      have hst' : st' = st ++ ps1 := by rw [hc] at h1; exact h1
      cases exc with
      | none =>
        subst hst'
        obtain ⟨ps2, h3, h4⟩ := copyRootsLoop_shape e gfs rcf fname rest (st ++ ps1)
        refine ⟨ps1 ++ ps2, ?_, ?_⟩
        · rw [h3, List.append_assoc]
        · intro en hen
          rcases List.mem_append.mp hen with h | h
          · obtain ⟨k, hk⟩ := h2 en h
            exact ⟨suffix, k, hk⟩
          · exact h4 en h
      | some ex =>
        refine ⟨ps1, hst', ?_⟩
        intro en hen
        obtain ⟨k, hk⟩ := h2 en hen
        exact ⟨suffix, k, hk⟩

/-- Folding `_delete_savedir` over a list of snapshots filters the store by
"no deleted snapshot's filename is a prefix of the entry name". -/
theorem foldl_delete_eq_filter (L : List SaveInfo) :
    ∀ store : Store,
      L.foldl (fun st si => _delete_savedir si.filename st) store =
        store.filter (fun en => L.all (fun si => !(strPref si.filename en.topName))) := by
  induction L with
  | nil => intro store; simp
  | cons a L ih =>
    intro store
    rw [List.foldl_cons, ih, _delete_savedir, List.filter_filter]
    apply List.filter_congr
    intro en _
    simp [Bool.and_comm]

/-- Listing is a permutation of the parsed sidecars. -/
theorem get_saveinfos_perm (store : Store) :
    List.Perm (get_saveinfos store) (rawInfos store) := by
  unfold get_saveinfos
  exact (List.filter_append_perm _ _).trans (List.perm_insertionSort tsGE (rawInfos store))

theorem mem_get_saveinfos {store : Store} {si : SaveInfo} :
    si ∈ get_saveinfos store ↔ si ∈ rawInfos store :=
  (get_saveinfos_perm store).mem_iff

/-- The undo/regular partition of the listing equals the partition of the
sorted parse result. -/
theorem cull_partition (store : Store) :
    (get_saveinfos store).filter (fun i => i.is_undo) =
      ((rawInfos store).insertionSort tsGE).filter (fun i => i.is_undo) ∧
    (get_saveinfos store).filter (fun i => !i.is_undo) =
      ((rawInfos store).insertionSort tsGE).filter (fun i => !i.is_undo) := by
  unfold get_saveinfos
  constructor
  · rw [List.filter_append, List.filter_filter, List.filter_filter]
    have h1 : ∀ x : SaveInfo, (x.is_undo && x.is_undo) = x.is_undo := by
      intro x; cases hx : x.is_undo <;> simp
    have h2 : ∀ x : SaveInfo, (x.is_undo && !x.is_undo) = false := by
      intro x; cases hx : x.is_undo <;> simp
    rw [List.filter_congr (fun x _ => h1 x), List.filter_congr (fun x _ => h2 x)]
    simp
  · rw [List.filter_append, List.filter_filter, List.filter_filter]
    have h1 : ∀ x : SaveInfo, (!x.is_undo && x.is_undo) = false := by
      intro x; cases hx : x.is_undo <;> simp
    have h2 : ∀ x : SaveInfo, (!x.is_undo && !x.is_undo) = !x.is_undo := by
      intro x; cases hx : x.is_undo <;> simp
    rw [List.filter_congr (fun x _ => h1 x), List.filter_congr (fun x _ => h2 x)]
    simp

/-- A sorted (newest-first) list with a take/drop split: every kept element is
at least as new as every dropped one. -/
theorem sorted_take_drop {l : List SaveInfo} (hs : l.Sorted tsGE) (n : Nat) :
    ∀ x ∈ l.take n, ∀ y ∈ l.drop n, y.timestamp ≤ x.timestamp := by
  intro x hx y hy
  have hsplit : l.take n ++ l.drop n = l := List.take_append_drop n l
  have hp : List.Pairwise tsGE (l.take n ++ l.drop n) := by rw [hsplit]; exact hs
  exact (List.pairwise_append.mp hp).2.2 x hx y hy

/-! ### Claim C10 -/

/-- C10: `do_delete` removes exactly the store entries whose top-level name has
the snapshot's `filename` as a prefix (the `glob(filename + "*")` semantics):
the sidecar `filename + ".json"`, every suffixed payload directory
`filename + suffix`, and consequently the entries of any other snapshot whose
filename extends this one character-for-character; entries not matching the
prefix are left unchanged. -/
theorem c10_delete_glob :
    (∀ (si : SaveInfo) (store : Store) (en : Entry),
      en ∈ do_delete si store ↔ en ∈ store ∧ strPref si.filename en.topName = false) ∧
    (∀ (si : SaveInfo) (store : Store) (c : SidecarContent),
      Entry.json si.filename c ∉ do_delete si store) ∧
    (∀ (si : SaveInfo) (store : Store) (suffix rel : String),
      Entry.pfile (si.filename ++ suffix) rel ∉ do_delete si store) ∧
    (∀ (si si' : SaveInfo) (store : Store) (c : SidecarContent),
      strPref si.filename si'.filename = true →
      Entry.json si'.filename c ∉ do_delete si store) := by
  have hmem : ∀ (si : SaveInfo) (store : Store) (en : Entry),
      en ∈ do_delete si store ↔ en ∈ store ∧ strPref si.filename en.topName = false := by
    intro si store en
    rw [do_delete, _delete_savedir, List.mem_filter]
    simp [Bool.not_eq_true']
  refine ⟨hmem, ?_, ?_, ?_⟩
  · intro si store c h
    have := ((hmem si store _).mp h).2
    rw [show (Entry.json si.filename c).topName = si.filename ++ ".json" from rfl,
      strPref_append] at this
    exact absurd this (by simp)
  · intro si store suffix rel h
    have := ((hmem si store _).mp h).2
    rw [show (Entry.pfile (si.filename ++ suffix) rel).topName = si.filename ++ suffix
      from rfl, strPref_append] at this
    exact absurd this (by simp)
  · intro si si' store c hp h
    have := ((hmem si store _).mp h).2
    rw [show (Entry.json si'.filename c).topName = si'.filename ++ ".json" from rfl,
      strPref_trans_append hp] at this
    exact absurd this (by simp)

theorem c10_delete_glob_witness :
    (Entry.json "undo_1_5" (.valid uEx5) ∈ do_delete siEx12 storeEx) ∧
    Entry.json siEx12.filename (.valid siEx12) ∉ do_delete siEx12 storeEx ∧
    Entry.pfile (siEx12.filename ++ "") "f" ∉ do_delete siEx12 storeEx ∧
    Entry.json siEx123.filename (.valid siEx123) ∉ do_delete siEx12 storeEx :=
  ⟨(c10_delete_glob.1 siEx12 storeEx _).mpr ⟨by decide, by decide⟩,
   c10_delete_glob.2.1 siEx12 storeEx _,
   c10_delete_glob.2.2.1 siEx12 storeEx "" "f",
   c10_delete_glob.2.2.2 siEx12 siEx123 storeEx _ (by decide)⟩

/-! ### Claim C2 -/

theorem _get_directory_timestamp_error {gfs : GFs} {rcf : List String} {src : String}
    {ex : PyExc} (h : _get_directory_timestamp gfs rcf src = .error ex) :
    ex = .valueError := by
  unfold _get_directory_timestamp at h
  cases hts : rcf.filterMap (fun k =>
      match gfs (joinPath src k) with
      | .file t _ => some t
      | .absent => none) with
  | nil => rw [hts] at h; cases h; rfl
  | cons t rest => rw [hts] at h; exact absurd h (by simp)

theorem dirTimesLoop_error {gfs : GFs} {rcf : List String} :
    ∀ {roots : List (String × String)} {ex : PyExc},
      dirTimesLoop gfs rcf roots = .error ex → ex = .valueError
  | [], ex, h => by simp [dirTimesLoop] at h
  | r :: rest, ex, h => by
    unfold dirTimesLoop at h
    cases hd : _get_directory_timestamp gfs rcf r.1 with
    | error ex' =>
      rw [hd] at h
      cases h
      exact _get_directory_timestamp_error hd
    | ok t =>
      rw [hd] at h
      cases hrest : dirTimesLoop gfs rcf rest with
      | error ex' =>
        rw [hrest] at h
        cases h
        exact dirTimesLoop_error hrest
      | ok ts => rw [hrest] at h; exact absurd h (by simp)

theorem _get_rcf_timestamp_error {gfs : GFs} {rcf : List String}
    {roots : List (String × String)} {ex : PyExc}
    (h : _get_rcf_timestamp gfs rcf roots = .error ex) : ex = .valueError := by
  unfold _get_rcf_timestamp at h
  cases hl : dirTimesLoop gfs rcf roots with
  | error ex' =>
    rw [hl] at h
    cases h
    exact dirTimesLoop_error hl
  | ok ts =>
    rw [hl] at h
    cases ts with
    | nil => cases h; rfl
    | cons t rest => exact absurd h (by simp)

theorem backupSkip_error {e : Engine} {gfs : GFs} {gi : GameInfo} {rcf : List String}
    {store : Store} {ex : PyExc} (h : backupSkip e gfs gi rcf store = .error ex) :
    ex = .valueError := by
  unfold backupSkip at h
  cases hn : _get_newest_save gi.game_id store with
  | none => rw [hn] at h; exact absurd h (by simp)
  | some n =>
    rw [hn] at h
    dsimp only at h
    by_cases hig : e.ignore_unchanged = true
    · rw [if_pos hig] at h
      cases ht : _get_rcf_timestamp gfs rcf gi.roots with
      | error ex' =>
        rw [ht] at h
        cases h
        exact _get_rcf_timestamp_error ht
      | ok t => rw [ht] at h; exact absurd h (by simp)
    · rw [if_neg hig] at h; exact absurd h (by simp)

/-- Cleanup of `_copy_all_to_saveinfo` on failure: the result store is the
input store with every entry matching the snapshot's filename glob removed
(the partially copied payload files are removed along with it). -/
theorem copy_all_cleanup {e : Engine} {gfs : GFs} {si : SaveInfo} {rcf : List String}
    {store : Store} {ex : PyExc}
    (h : (_copy_all_to_saveinfo e gfs si rcf store).2 = some ex) :
    (_copy_all_to_saveinfo e gfs si rcf store).1 = _delete_savedir si.filename store := by
  unfold _copy_all_to_saveinfo at h ⊢
  obtain ⟨ps, hps, hall⟩ := copyRootsLoop_shape e gfs rcf si.filename si.game_info.roots store
  cases hc : copyRootsLoop e gfs rcf si.filename si.game_info.roots store with
  | mk st exc =>
    rw [hc] at h hps
    cases exc with
    | none => exact absurd h (by simp)
    | some ex' =>
      simp only at hps h ⊢
      rw [hps, _delete_savedir, List.filter_append]
      have hnil : ps.filter (fun en => !(strPref si.filename en.topName)) = [] := by
        rw [List.filter_eq_nil_iff]
        intro en hen
        obtain ⟨suffix, k, hk⟩ := hall en hen
        subst hk
        rw [show (Entry.pfile (si.filename ++ suffix) k).topName = si.filename ++ suffix
          from rfl, strPref_append]
        simp
      rw [hnil, List.append_nil]
      rfl

/-- C2: for a snapshot being populated by `do_backup` or `do_restore`, an
exception during the copy phase deletes the partially written snapshot —
sidecar JSON and payload — before the exception propagates; when no other
store entry matches the snapshot's name glob, the store is left exactly as it
was before the snapshot was started. -/
theorem c2_copy_failure_cleanup :
    (∀ (e : Engine) (gfs : GFs) (si : SaveInfo) (rcf : List String) (store : Store)
        (ex : PyExc),
      (_copy_all_to_saveinfo e gfs si rcf store).2 = some ex →
      (_copy_all_to_saveinfo e gfs si rcf store).1 = _delete_savedir si.filename store) ∧
    (∀ (e : Engine) (gfs : GFs) (gi : GameInfo) (rcf : List String) (now : Nat)
        (dry : Bool) (store : Store),
      (do_backup e gfs gi rcf now dry store).2 = .error .osError →
      (do_backup e gfs gi rcf now dry store).1 =
        _delete_savedir (mkFilename false gi.game_id now) store) ∧
    (∀ (e : Engine) (gfs : GFs) (si : SaveInfo) (rcf : List String) (now : Nat)
        (store : Store),
      (do_restore e gfs si rcf now store).2 = some .osError →
      (do_restore e gfs si rcf now store).1 =
        _delete_savedir (mkFilename true si.game_info.game_id now) store) ∧
    (∀ (fname : String) (store : Store),
      (∀ en ∈ store, strPref fname en.topName = false) →
      _delete_savedir fname store = store) := by
  have hcreate_delete : ∀ (e : Engine) (gi : GameInfo) (now : Nat) (is_undo : Bool)
      (store : Store),
      _delete_savedir (mkFilename is_undo gi.game_id now)
          (_create_savedir e gi now is_undo store).2 =
        _delete_savedir (mkFilename is_undo gi.game_id now) store := by
    intro e gi now is_undo store
    unfold _create_savedir
    by_cases hd : e.dry_run = true
    · simp [hd]
    · simp only [Bool.not_eq_true] at hd
      simp only [hd, Bool.false_eq_true, if_false]
      rw [_delete_savedir, _delete_savedir, List.filter_append]
      have : List.filter (fun en => !(strPref (mkFilename is_undo gi.game_id now) en.topName))
          [Entry.json (mkFilename is_undo gi.game_id now)
            (.valid ⟨gi, now, mkFilename is_undo gi.game_id now, is_undo⟩)] = [] := by
        rw [List.filter_eq_nil_iff]
        intro en hen
        rw [List.mem_singleton] at hen
        subst hen
        rw [show (Entry.json (mkFilename is_undo gi.game_id now)
          (.valid ⟨gi, now, mkFilename is_undo gi.game_id now, is_undo⟩)).topName =
            mkFilename is_undo gi.game_id now ++ ".json" from rfl, strPref_append]
        simp
      rw [this, List.append_nil]
  refine ⟨fun e gfs si rcf store ex h => copy_all_cleanup h, ?_, ?_, ?_⟩
  · intro e gfs gi rcf now dry store h
    unfold do_backup at h ⊢
    by_cases hrcf : rcf = []
    · rw [if_pos hrcf] at h; exact absurd h (by simp)
    · rw [if_neg hrcf] at h ⊢
      cases hbs : backupSkip e gfs gi rcf store with
      | error ex =>
        rw [hbs] at h
        have h1 : ex = PyExc.osError := by simpa using h
        have h2 := backupSkip_error hbs
        rw [h1] at h2
        exact absurd h2 (by simp)
      | ok b =>
        rw [hbs] at h
        cases b with
        | true => simp at h
        | false =>
          dsimp only at h ⊢
          by_cases hdry : dry = true
          · rw [if_pos hdry] at h; simp at h
          · rw [if_neg hdry] at h ⊢
            cases hca : _copy_all_to_saveinfo e gfs
                (_create_savedir e gi now false store).1 rcf
                (_create_savedir e gi now false store).2 with
            | mk st2 exc =>
              rw [hca] at h
              cases exc with
              | none => simp at h
              | some ex' =>
                dsimp only
                have hcc := copy_all_cleanup
                  (show (_copy_all_to_saveinfo e gfs
                      (_create_savedir e gi now false store).1 rcf
                      (_create_savedir e gi now false store).2).2 = some ex' by
                    rw [hca])
                rw [hca] at hcc
                dsimp only at hcc
                rw [hcc]
                have hfn : (_create_savedir e gi now false store).1.filename =
                    mkFilename false gi.game_id now := rfl
                rw [hfn, hcreate_delete]
  · intro e gfs si rcf now store h
    unfold do_restore at h ⊢
    by_cases hrcf : rcf = []
    · rw [if_pos hrcf] at h
      have : PyExc.assertionError = PyExc.osError := by simpa using h
      exact absurd this (by simp)
    · rw [if_neg hrcf] at h ⊢
      by_cases hu : si.is_undo = true
      · rw [if_pos hu] at h; simp at h
      · rw [if_neg hu] at h ⊢
        dsimp only at h ⊢
        cases hca : _copy_all_to_saveinfo e gfs
            (_create_savedir e si.game_info now true store).1 rcf
            (_create_savedir e si.game_info now true store).2 with
        | mk st1 exc =>
          rw [hca] at h
          cases exc with
          | none => simp at h
          | some ex' =>
            dsimp only
            have hcc := copy_all_cleanup
              (show (_copy_all_to_saveinfo e gfs
                  (_create_savedir e si.game_info now true store).1 rcf
                  (_create_savedir e si.game_info now true store).2).2 = some ex' by
                rw [hca])
            rw [hca] at hcc
            dsimp only at hcc
            rw [hcc]
            have hfn : (_create_savedir e si.game_info now true store).1.filename =
                mkFilename true si.game_info.game_id now := rfl
            rw [hfn, hcreate_delete]
  · intro fname store h
    rw [_delete_savedir, List.filter_eq_self]
    intro en hen
    rw [h en hen]
    rfl

theorem c2_copy_failure_cleanup_witness :
    (_copy_all_to_saveinfo engEx gfsExBad siEx12 ["f"] []).1 =
      _delete_savedir siEx12.filename [] ∧
    (do_backup engEx gfsExBad giEx ["f"] 10 false storeEx).1 =
      _delete_savedir (mkFilename false giEx.game_id 10) storeEx ∧
    (do_restore engEx gfsExBad siEx12 ["f"] 10 storeEx).1 =
      _delete_savedir (mkFilename true siEx12.game_info.game_id 10) storeEx ∧
    _delete_savedir "zzz" storeEx = storeEx :=
  ⟨c2_copy_failure_cleanup.1 engEx gfsExBad siEx12 ["f"] [] .osError rfl,
   c2_copy_failure_cleanup.2.1 engEx gfsExBad giEx ["f"] 10 false storeEx rfl,
   c2_copy_failure_cleanup.2.2.1 engEx gfsExBad siEx12 ["f"] 10 storeEx rfl,
   c2_copy_failure_cleanup.2.2.2 "zzz" storeEx (by decide)⟩

/-! ### Claim C7 -/

/-- C7 counterexample: with `save_games_roots` already cached, `_read_rcf`
returns the manifest (relies on the cached root) even when NO manifest entry
joined to the cached root names an existing file — the cached path performs no
re-validation. -/
theorem c7_cached_revalidation_cex :
    (_read_rcf gfsExEmpty ["f"] [] (some [("r", "")])).1 = some ["f"] ∧
    _rcf_is_valid gfsExEmpty "r" ["f"] = false :=
  ⟨rfl, rfl⟩

/-- C7 amended: the validation contract is applied only at first resolution.
With cached roots, `_read_rcf` returns the manifest and the cached roots
untouched, without consulting `_rcf_is_valid`; on the uncached path every root
it stores has been confirmed by `_rcf_is_valid`. -/
theorem c7_cached_no_revalidation :
    (∀ (gfs : GFs) (rcf cands : List String) (rs : List (String × String)),
      _read_rcf gfs rcf cands (some rs) = (some rcf, some rs)) ∧
    (∀ (gfs : GFs) (rcf cands rcf' : List String) (rd : List (String × String)),
      _read_rcf gfs rcf cands none = (some rcf', some rd) →
      rcf' = rcf ∧ ∀ p ∈ rd, _rcf_is_valid gfs p.1 rcf = true) := by
  constructor
  · intro gfs rcf cands rs
    rfl
  · intro gfs rcf cands rcf' rd h
    unfold _read_rcf at h
    by_cases hc : cands = []
    · rw [if_pos hc] at h; exact absurd h (by simp)
    · rw [if_neg hc] at h
      dsimp only at h
      by_cases hv : cands.filter (fun r => _rcf_is_valid gfs r rcf) = []
      · rw [if_pos hv] at h; exact absurd h (by simp)
      · rw [if_neg hv] at h
        have h1 : some rcf = some rcf' := congrArg Prod.fst h
        have h2 := congrArg Prod.snd h
        simp only [Option.some_inj] at h1 h2
        refine ⟨h1.symm, ?_⟩
        intro p hp
        rw [← h2] at hp
        obtain ⟨q, hq, hqp⟩ := List.mem_map.mp hp
        obtain ⟨hlt, hx⟩ := List.mem_enum hq
        have hmemv : q.2 ∈ cands.filter (fun r => _rcf_is_valid gfs r rcf) := by
          rw [hx]
          exact List.getElem_mem _
        have := (List.mem_filter.mp hmemv).2
        rw [← hqp]
        exact this

theorem c7_cached_no_revalidation_witness :
    _read_rcf gfsEx ["f"] ["r"] (some [("q", "")]) = (some ["f"], some [("q", "")]) ∧
    (["f"] = ["f"] ∧
      ∀ p ∈ [(("r" : String), ("" : String))], _rcf_is_valid gfsEx p.1 ["f"] = true) :=
  ⟨c7_cached_no_revalidation.1 gfsEx ["f"] ["r"] [("q", "")],
   c7_cached_no_revalidation.2 gfsEx ["f"] ["r"] ["f"] [("r", "")] rfl⟩

/-! ### Claim C9 -/

/-- C9: with change detection enabled, an existing non-undo snapshot for the
game, and no manifest-listed file present under any cached save root, a backup
raises the unhandled `ValueError` coming from `max()` of an empty sequence —
it neither returns "nothing to back up" nor "unsupported", and the store is
untouched. -/
theorem c9_unmounted_valueerror :
    ∀ (e : Engine) (gfs : GFs) (gi : GameInfo) (rcf : List String) (now : Nat)
      (dry : Bool) (store : Store) (n : SaveInfo),
      rcf ≠ [] →
      e.ignore_unchanged = true →
      _get_newest_save gi.game_id store = some n →
      gi.roots ≠ [] →
      (∀ p ∈ gi.roots, ∀ k ∈ rcf, gfs (joinPath p.1 k) = .absent) →
      do_backup e gfs gi rcf now dry store = (store, .error .valueError) := by
  intro e gfs gi rcf now dry store n hrcf hig hn hroots habs
  have hdir : ∀ p ∈ gi.roots, _get_directory_timestamp gfs rcf p.1 = .error .valueError := by
    intro p hp
    unfold _get_directory_timestamp
    have : rcf.filterMap (fun k =>
        match gfs (joinPath p.1 k) with
        | .file t _ => some t
        | .absent => none) = [] := by
      rw [List.filterMap_eq_nil_iff]
      intro k hk
      rw [habs p hp k hk]
    rw [this]
  have hts : _get_rcf_timestamp gfs rcf gi.roots = .error .valueError := by
    unfold _get_rcf_timestamp
    cases hr : gi.roots with
    | nil => exact absurd hr hroots
    | cons p rest =>
      have : dirTimesLoop gfs rcf (p :: rest) = .error .valueError := by
        unfold dirTimesLoop
        rw [hdir p (hr ▸ List.mem_cons_self p rest)]
      rw [this]
  have hbs : backupSkip e gfs gi rcf store = .error .valueError := by
    unfold backupSkip
    rw [hn]
    dsimp only
    rw [if_pos hig, hts]
  unfold do_backup
  rw [if_neg hrcf, hbs]

theorem c9_unmounted_valueerror_witness :
    do_backup engEx gfsExEmpty giEx ["f"] 200 false storeEx =
      (storeEx, .error .valueError) :=
  c9_unmounted_valueerror engEx gfsExEmpty giEx ["f"] 200 false storeEx siEx123
    (by decide) rfl rfl (by decide) (by decide)

/-! ### Claim C3 -/

/-- C3 (code bug): on a store holding a syntactically corrupt sidecar, the
List call still succeeds and returns the remaining valid snapshots sorted
newest-first with the undo moved to the front — but the corrupt sidecar file is
NOT deleted: the self-healing `os.remove(j)` is passed the open file object
instead of a path, raises `TypeError`, and the `except OSError` handler does
not catch it, so the file survives every scan. -/
theorem c3_corrupt_sidecar_remains :
    (get_saveinfos_run storeC3).1 = [uEx5, siEx123, siEx12] ∧
    Entry.json "save_1_50" .corrupt ∈ (get_saveinfos_run storeC3).2 := by
  exact ⟨by decide, by decide⟩

/-! ### Claim C1 -/

/-- C1 counterexample: in a snapshot-creating backup run there IS a point at
which the sidecar JSON exists on disk while a manifest-listed file that exists
in the save root has not yet been copied into the payload directory: the state
right after `_create_savedir` returns and before `_copy_all_to_saveinfo`
copies anything. -/
theorem c1_sidecar_before_copy_cex :
    (∃ st ∈ do_backup_trace engEx gfsEx giEx ["f"] 100 false [],
      Entry.json "save_1_100" (.valid ⟨giEx, 100, "save_1_100", false⟩) ∈ st ∧
      Entry.pfile "save_1_100" "f" ∉ st) ∧
    gfsEx (joinPath "r" "f") = .file 10 true ∧
    (do_backup engEx gfsEx giEx ["f"] 100 false []).2 =
      .ok (.backedUp ⟨giEx, 100, "save_1_100", false⟩) := by
  refine ⟨⟨[Entry.json "save_1_100" (.valid ⟨giEx, 100, "save_1_100", false⟩)],
    ?_, ?_, ?_⟩, rfl, rfl⟩
  · decide
  · decide
  · decide

/-- C1 amended: the sidecar is written BEFORE the copy phase, not after it.
In every run that proceeds past the change-detection check with real writes,
the first store mutation is the sidecar write: the second trace state is
exactly the input store plus the new sidecar JSON, and contains no payload
file that was not already in the store. -/
theorem c1_sidecar_written_first :
    ∀ (e : Engine) (gfs : GFs) (gi : GameInfo) (rcf : List String) (now : Nat)
      (dry : Bool) (store : Store),
      e.dry_run = false →
      2 ≤ (do_backup_trace e gfs gi rcf now dry store).length →
      (do_backup_trace e gfs gi rcf now dry store)[1]? =
        some (store ++ [Entry.json (mkFilename false gi.game_id now)
          (.valid ⟨gi, now, mkFilename false gi.game_id now, false⟩)]) ∧
      (∀ d k, Entry.pfile d k ∈ store ++ [Entry.json (mkFilename false gi.game_id now)
          (.valid ⟨gi, now, mkFilename false gi.game_id now, false⟩)] →
        Entry.pfile d k ∈ store) := by
  intro e gfs gi rcf now dry store hdr hlen
  unfold do_backup_trace at hlen ⊢
  by_cases hrcf : rcf = []
  · rw [if_pos hrcf] at hlen
    simp at hlen
  · rw [if_neg hrcf] at hlen ⊢
    cases hbs : backupSkip e gfs gi rcf store with
    | error ex =>
      rw [hbs] at hlen
      simp at hlen
    | ok b =>
      rw [hbs] at hlen
      cases b with
      | true => simp at hlen
      | false =>
        dsimp only at hlen ⊢
        by_cases hdry : dry = true
        · rw [if_pos hdry] at hlen
          simp at hlen
        · rw [if_neg hdry] at hlen ⊢
          have hcs : (_create_savedir e gi now false store).2 =
              store ++ [Entry.json (mkFilename false gi.game_id now)
                (.valid ⟨gi, now, mkFilename false gi.game_id now, false⟩)] := by
            unfold _create_savedir
            rw [hdr]
            rfl
          constructor
          · cases hcl : copyRootsLoop e gfs rcf
                (_create_savedir e gi now false store).1.filename
                (_create_savedir e gi now false store).1.game_info.roots
                (_create_savedir e gi now false store).2 with
            | mk st2 exc =>
              cases exc with
              | none =>
                dsimp only
                rw [hcs]
                simp
              | some ex =>
                dsimp only
                rw [hcs]
                simp
          · intro d k hk
            rcases List.mem_append.mp hk with h | h
            · exact h
            · simp at h

theorem c1_sidecar_written_first_witness :
    (do_backup_trace engEx gfsEx giEx ["f"] 100 false [])[1]? =
      some ([] ++ [Entry.json (mkFilename false giEx.game_id 100)
        (.valid ⟨giEx, 100, mkFilename false giEx.game_id 100, false⟩)]) ∧
    (∀ d k, Entry.pfile d k ∈ ([] : Store) ++ [Entry.json (mkFilename false giEx.game_id 100)
        (.valid ⟨giEx, 100, mkFilename false giEx.game_id 100, false⟩)] →
      Entry.pfile d k ∈ ([] : Store)) :=
  c1_sidecar_written_first engEx gfsEx giEx ["f"] 100 false [] rfl (by decide)

/-! ### Claim C5 -/

theorem cull_eq_filter (e : Engine) (store : Store) :
    _cull_old_saves e store =
      store.filter (fun en => (deletedOf e store).all
        (fun si => !(strPref si.filename en.topName))) := by
  unfold _cull_old_saves
  dsimp only
  rw [(cull_partition store).1, (cull_partition store).2, foldl_delete_eq_filter]
  rfl

theorem raw_cull_mem (e : Engine) (store : Store)
    (W : ∀ fn si, Entry.json fn (.valid si) ∈ store → fn = si.filename)
    (si : SaveInfo) :
    si ∈ rawInfos (_cull_old_saves e store) ↔
      si ∈ rawInfos store ∧
      (deletedOf e store).all
        (fun d => !(strPref d.filename (si.filename ++ ".json"))) = true := by
  rw [cull_eq_filter, rawInfos_mem_iff]
  constructor
  · rintro ⟨fn, hfn⟩
    rw [List.mem_filter] at hfn
    have hw := W fn si hfn.1
    subst hw
    exact ⟨rawInfos_mem_iff.mpr ⟨_, hfn.1⟩, hfn.2⟩
  · rintro ⟨hmem, hq⟩
    obtain ⟨fn, hfn⟩ := rawInfos_mem_iff.mp hmem
    have hw := W fn si hfn
    subst hw
    exact ⟨si.filename, List.mem_filter.mpr ⟨hfn, hq⟩⟩

theorem mem_sortedInfos {store : Store} {si : SaveInfo} :
    si ∈ sortedInfos store ↔ si ∈ rawInfos store := by
  unfold sortedInfos
  exact List.mem_insertionSort tsGE

/-- Splitting membership in the sorted parse by the undo flag. -/
theorem mem_undos_or_saves {store : Store} {si : SaveInfo} (h : si ∈ rawInfos store) :
    si ∈ undosOf store ∨ si ∈ savesOf store := by
  by_cases hu : si.is_undo = true
  · exact Or.inl (List.mem_filter.mpr ⟨mem_sortedInfos.mpr h, by simp [hu]⟩)
  · exact Or.inr (List.mem_filter.mpr ⟨mem_sortedInfos.mpr h, by simp [hu]⟩)

theorem undosOf_subset_raw {store : Store} {si : SaveInfo} (h : si ∈ undosOf store) :
    si ∈ rawInfos store ∧ si.is_undo = true := by
  have := List.mem_filter.mp h
  exact ⟨mem_sortedInfos.mp this.1, this.2⟩

theorem savesOf_subset_raw {store : Store} {si : SaveInfo} (h : si ∈ savesOf store) :
    si ∈ rawInfos store ∧ si.is_undo = false := by
  have := List.mem_filter.mp h
  exact ⟨mem_sortedInfos.mp this.1, by simpa using this.2⟩

theorem sorted_undosOf (store : Store) : List.Sorted tsGE (undosOf store) :=
  (List.sorted_insertionSort tsGE (rawInfos store)).filter _

theorem sorted_savesOf (store : Store) : List.Sorted tsGE (savesOf store) :=
  (List.sorted_insertionSort tsGE (rawInfos store)).filter _

/-- C5: after culling, at most one undo snapshot remains (the newest by
timestamp) and at most `max_saves` regular snapshots remain (always the newest
by timestamp); the surviving snapshots are exactly the newest undo and the
newest `max_saves` regular ones, and culling deletes physically regardless of
the dry-run flag.  Side conditions: sidecar names match their content
(engine-written stores do), timestamps are distinct, and no snapshot's
filename is a prefix of another's sidecar name (generated millisecond
timestamps of equal digit length satisfy both). -/
theorem c5_cull_retention :
    (∀ (m : Nat) (iu : Bool) (store : Store),
      _cull_old_saves ⟨true, m, iu⟩ store = _cull_old_saves ⟨false, m, iu⟩ store) ∧
    (∀ (e : Engine) (store : Store),
      (∀ fn si, Entry.json fn (.valid si) ∈ store → fn = si.filename) →
      (rawInfos store).Pairwise (fun a b => a.timestamp ≠ b.timestamp) →
      (∀ si si', si ∈ rawInfos store → si' ∈ rawInfos store → si ≠ si' →
        strPref si.filename (si'.filename ++ ".json") = false) →
      (∀ si, si ∈ rawInfos (_cull_old_saves e store) ↔
        si ∈ (undosOf store).take 1 ++ (savesOf store).take e.max_saves) ∧
      (∀ x ∈ (undosOf store).take 1, ∀ y ∈ (undosOf store).drop 1,
        y.timestamp < x.timestamp) ∧
      (∀ x ∈ (savesOf store).take e.max_saves, ∀ y ∈ (savesOf store).drop e.max_saves,
        y.timestamp < x.timestamp) ∧
      ((undosOf store).take 1).length ≤ 1 ∧
      ((savesOf store).take e.max_saves).length ≤ e.max_saves) := by
  constructor
  · intro m iu store
    rfl
  · intro e store W D P
    have hnodupRaw : (rawInfos store).Nodup :=
      D.imp (fun hab => fun he => hab (he ▸ rfl))
    have hpermSorted : List.Perm (sortedInfos store) (rawInfos store) :=
      List.perm_insertionSort tsGE (rawInfos store)
    have hnodupSorted : (sortedInfos store).Nodup := hpermSorted.symm.nodup hnodupRaw
    have hDsorted : (sortedInfos store).Pairwise (fun a b => a.timestamp ≠ b.timestamp) :=
      (List.Perm.pairwise_iff (fun hxy => Ne.symm hxy) hpermSorted).mpr D
    have hnodupU : (undosOf store).Nodup := hnodupSorted.filter _
    have hnodupS : (savesOf store).Nodup := hnodupSorted.filter _
    have hDU : (undosOf store).Pairwise (fun a b => a.timestamp ≠ b.timestamp) :=
      hDsorted.filter _
    have hDS : (savesOf store).Pairwise (fun a b => a.timestamp ≠ b.timestamp) :=
      hDsorted.filter _
    -- a deleted snapshot differs from a kept one
    have hne : ∀ si ∈ (undosOf store).take 1 ++ (savesOf store).take e.max_saves,
        ∀ d ∈ deletedOf e store, d ≠ si := by
      intro si hsi d hd
      rcases List.mem_append.mp hsi with hsiu | hsis <;>
        rcases List.mem_append.mp hd with hdu | hds
      · exact fun he =>
          (List.disjoint_take_drop hnodupU (le_refl 1)) hsiu (he ▸ hdu)
      · intro he
        have h1 := (undosOf_subset_raw (List.take_subset _ _ hsiu)).2
        have h2 := (savesOf_subset_raw (List.drop_subset _ _ hds)).2
        rw [he] at h2
        rw [h1] at h2
        exact absurd h2 (by simp)
      · intro he
        have h1 := (savesOf_subset_raw (List.take_subset _ _ hsis)).2
        have h2 := (undosOf_subset_raw (List.drop_subset _ _ hdu)).2
        rw [he] at h2
        rw [h1] at h2
        exact absurd h2 (by simp)
      · exact fun he =>
          (List.disjoint_take_drop hnodupS (le_refl e.max_saves)) hsis (he ▸ hds)
    have hdelRaw : ∀ d ∈ deletedOf e store, d ∈ rawInfos store := by
      intro d hd
      rcases List.mem_append.mp hd with h | h
      · exact (undosOf_subset_raw (List.drop_subset _ _ h)).1
      · exact (savesOf_subset_raw (List.drop_subset _ _ h)).1
    refine ⟨?_, ?_, ?_, List.length_take_le .., List.length_take_le ..⟩
    · intro si
      rw [raw_cull_mem e store W si]
      constructor
      · rintro ⟨hmem, hq⟩
        rw [List.all_eq_true] at hq
        have hnotdel : si ∉ deletedOf e store := by
          intro hdel
          have := hq si hdel
          rw [strPref_append] at this
          exact absurd this (by simp)
        rcases mem_undos_or_saves hmem with h | h
        · have hsplit : (undosOf store).take 1 ++ (undosOf store).drop 1 = undosOf store :=
            List.take_append_drop ..
          rw [← hsplit] at h
          rcases List.mem_append.mp h with h | h
          · exact List.mem_append.mpr (Or.inl h)
          · exact absurd (List.mem_append.mpr (Or.inl h)) (by
              intro hc
              exact hnotdel hc)
        · have hsplit : (savesOf store).take e.max_saves ++ (savesOf store).drop e.max_saves =
              savesOf store := List.take_append_drop ..
          rw [← hsplit] at h
          rcases List.mem_append.mp h with h | h
          · exact List.mem_append.mpr (Or.inr h)
          · exact absurd (List.mem_append.mpr (Or.inr h)) (by
              intro hc
              exact hnotdel hc)
      · intro hkept
        have hmem : si ∈ rawInfos store := by
          rcases List.mem_append.mp hkept with h | h
          · exact (undosOf_subset_raw (List.take_subset _ _ h)).1
          · exact (savesOf_subset_raw (List.take_subset _ _ h)).1
        refine ⟨hmem, ?_⟩
        rw [List.all_eq_true]
        intro d hd
        have hdne : d ≠ si := hne si hkept d hd
        have := P d si (hdelRaw d hd) hmem hdne
        rw [this]
        rfl
    · intro x hx y hy
      have hle := sorted_take_drop (sorted_undosOf store) 1 x hx y hy
      have hmx := List.take_subset _ _ hx
      have hmy := List.drop_subset _ _ hy
      have hsplit : (undosOf store).take 1 ++ (undosOf store).drop 1 = undosOf store :=
        List.take_append_drop ..
      have hpair : List.Pairwise (fun a b : SaveInfo => a.timestamp ≠ b.timestamp)
          ((undosOf store).take 1 ++ (undosOf store).drop 1) := by
        rw [hsplit]; exact hDU
      have hne2 := (List.pairwise_append.mp hpair).2.2 x hx y hy
      omega
    · intro x hx y hy
      have hle := sorted_take_drop (sorted_savesOf store) e.max_saves x hx y hy
      have hsplit : (savesOf store).take e.max_saves ++ (savesOf store).drop e.max_saves =
          savesOf store := List.take_append_drop ..
      have hpair : List.Pairwise (fun a b : SaveInfo => a.timestamp ≠ b.timestamp)
          ((savesOf store).take e.max_saves ++ (savesOf store).drop e.max_saves) := by
        rw [hsplit]; exact hDS
      have hne2 := (List.pairwise_append.mp hpair).2.2 x hx y hy
      omega

theorem c5_cull_retention_witness :
    ((∀ si, si ∈ rawInfos (_cull_old_saves engSmall storeC5) ↔
        si ∈ (undosOf storeC5).take 1 ++ (savesOf storeC5).take engSmall.max_saves) ∧
      (∀ x ∈ (undosOf storeC5).take 1, ∀ y ∈ (undosOf storeC5).drop 1,
        y.timestamp < x.timestamp) ∧
      (∀ x ∈ (savesOf storeC5).take engSmall.max_saves,
        ∀ y ∈ (savesOf storeC5).drop engSmall.max_saves,
        y.timestamp < x.timestamp) ∧
      ((undosOf storeC5).take 1).length ≤ 1 ∧
      ((savesOf storeC5).take engSmall.max_saves).length ≤ engSmall.max_saves) ∧
    _cull_old_saves ⟨true, 2, true⟩ storeC5 = _cull_old_saves ⟨false, 2, true⟩ storeC5 ∧
    rawInfos (_cull_old_saves engSmall storeC5) =
      [⟨giEx, 30, "save_1_30", false⟩, ⟨giEx, 40, "save_1_40", false⟩,
       ⟨giEx, 7, "undo_1_7", true⟩] :=
  ⟨c5_cull_retention.2 engSmall storeC5
    (by
      intro fn si h
      simp only [storeC5, List.mem_cons, List.not_mem_nil, or_false] at h
      rcases h with h | h | h | h | h | h | h <;>
        first
        | (simp only [Entry.json.injEq, SidecarContent.valid.injEq] at h
           obtain ⟨h1, h2⟩ := h
           subst h1
           subst h2
           rfl)
        | exact absurd h (by simp))
    (by decide)
    (by
      intro si si' h1 h2 hne
      have he : rawInfos storeC5 =
        [⟨giEx, 10, "save_1_10", false⟩, ⟨giEx, 5, "undo_1_5", true⟩,
         ⟨giEx, 30, "save_1_30", false⟩, ⟨giEx, 40, "save_1_40", false⟩,
         ⟨giEx, 7, "undo_1_7", true⟩, ⟨giEx, 20, "save_1_20", false⟩] := rfl
      rw [he] at h1 h2
      simp only [List.mem_cons, List.not_mem_nil, or_false] at h1 h2
      rcases h1 with rfl | rfl | rfl | rfl | rfl | rfl <;>
        rcases h2 with rfl | rfl | rfl | rfl | rfl | rfl <;>
        first
        | exact absurd rfl hne
        | decide),
   c5_cull_retention.1 2 true storeC5,
   by decide⟩

/-! ### Claim C4: supporting lemmas -/

theorem rawInfos_filter_subset {st : Store} {Q : Entry → Bool} {si : SaveInfo}
    (h : si ∈ rawInfos (st.filter Q)) : si ∈ rawInfos st :=
  ((List.filter_sublist st).filterMap _).subset h

theorem rawInfos_pfiles_nil {ps : Store}
    (h : ∀ en ∈ ps, ∃ suffix k, en = Entry.pfile suffix k) : rawInfos ps = [] := by
  rw [rawInfos, List.filterMap_eq_nil_iff]
  intro en hen
  obtain ⟨suffix, k, hk⟩ := h en hen
  subst hk
  rfl

/-- The freshly created snapshot (strictly newest timestamp) is never in the
cull deletion set. -/
theorem new_snapshot_not_deleted (e : Engine) (store st2 : Store) (c : SaveInfo)
    (hc_undo : c.is_undo = false)
    (hraw : rawInfos st2 = rawInfos store ++ [c])
    (hts : ∀ x ∈ rawInfos store, x.timestamp < c.timestamp)
    (hmax : 1 ≤ e.max_saves) :
    c ∉ deletedOf e st2 := by
  intro hdel
  have hcnotA : c ∉ rawInfos store := by
    intro hc
    have := hts c hc
    omega
  rcases List.mem_append.mp hdel with h | h
  · have := (undosOf_subset_raw (List.drop_subset _ _ h)).2
    rw [hc_undo] at this
    exact absurd this (by simp)
  · have hcount : (savesOf st2).count c ≤ 1 := by
      have h1 : (savesOf st2).count c ≤ (sortedInfos st2).count c :=
        (List.filter_sublist _).count_le c
      have h2 : (sortedInfos st2).count c = (rawInfos st2).count c :=
        (List.perm_insertionSort tsGE (rawInfos st2)).count_eq c
      have h3 : (rawInfos st2).count c = 1 := by
        rw [hraw, List.count_append, List.count_eq_zero.mpr hcnotA]
        simp
      omega
    have hlen : e.max_saves < (savesOf st2).length := by
      by_contra hle
      push_neg at hle
      have : (savesOf st2).drop e.max_saves = [] := by
        rw [List.drop_eq_nil_iff]
        exact hle
      rw [this] at h
      exact absurd h (List.not_mem_nil c)
    have htake : (savesOf st2).take e.max_saves ≠ [] := by
      intro hnil
      have := congrArg List.length hnil
      rw [List.length_take] at this
      simp only [List.length_nil] at this
      omega
    obtain ⟨x, hx⟩ := List.exists_mem_of_ne_nil _ htake
    have hge := sorted_take_drop (sorted_savesOf st2) e.max_saves x hx c h
    by_cases hxc : x = c
    · subst hxc
      have hsplit : (savesOf st2).take e.max_saves ++ (savesOf st2).drop e.max_saves =
          savesOf st2 := List.take_append_drop ..
      have : 2 ≤ (savesOf st2).count x := by
        rw [← hsplit, List.count_append]
        have c1 : 1 ≤ ((savesOf st2).take e.max_saves).count x :=
          List.count_pos_iff.mpr hx
        have c2 : 1 ≤ ((savesOf st2).drop e.max_saves).count x :=
          List.count_pos_iff.mpr h
        omega
      omega
    · have hxraw := (savesOf_subset_raw (List.take_subset _ _ hx)).1
      rw [hraw] at hxraw
      rcases List.mem_append.mp hxraw with hxa | hxc2
      · have := hts x hxa
        omega
      · rw [List.mem_singleton] at hxc2
        exact hxc hxc2

/-- `_get_newest_save` as a `find?` over the undo-first listing. -/
theorem get_newest_eq (gid : Nat) (store : Store) :
    _get_newest_save gid store =
      (undosOf store ++ savesOf store).find?
        (fun x => x.game_info.game_id = gid && !x.is_undo) := rfl

/-- After culling the store extended with a strictly newest non-undo snapshot
`c`, the newest listed save of `c`'s game is `c` itself. -/
theorem newest_after_backup (e : Engine) (store st2 : Store) (c : SaveInfo)
    (hc_undo : c.is_undo = false)
    (hraw : rawInfos st2 = rawInfos store ++ [c])
    (hjson : Entry.json c.filename (.valid c) ∈ st2)
    (hts : ∀ x ∈ rawInfos store, x.timestamp < c.timestamp)
    (hpref : ∀ x ∈ rawInfos store, strPref x.filename (c.filename ++ ".json") = false)
    (hmax : 1 ≤ e.max_saves) :
    _get_newest_save c.game_info.game_id (_cull_old_saves e st2) = some c := by
  have hnotdel := new_snapshot_not_deleted e store st2 c hc_undo hraw hts hmax
  have hcmem : Entry.json c.filename (.valid c) ∈ _cull_old_saves e st2 := by
    rw [cull_eq_filter]
    refine List.mem_filter.mpr ⟨hjson, ?_⟩
    rw [List.all_eq_true]
    intro d hd
    have hdraw : d ∈ rawInfos st2 := by
      rcases List.mem_append.mp hd with h | h
      · exact (undosOf_subset_raw (List.drop_subset _ _ h)).1
      · exact (savesOf_subset_raw (List.drop_subset _ _ h)).1
    rw [hraw] at hdraw
    rcases List.mem_append.mp hdraw with h | h
    · rw [show (Entry.json c.filename (SidecarContent.valid c)).topName =
        c.filename ++ ".json" from rfl, hpref d h]
      rfl
    · rw [List.mem_singleton] at h
      subst h
      exact absurd hd hnotdel
  have hcraw1 : c ∈ rawInfos (_cull_old_saves e st2) :=
    rawInfos_mem_iff.mpr ⟨c.filename, hcmem⟩
  have hsub1 : ∀ x ∈ rawInfos (_cull_old_saves e st2), x ∈ rawInfos st2 := by
    intro x hx
    rw [cull_eq_filter] at hx
    exact rawInfos_filter_subset hx
  have hcsaves : c ∈ savesOf (_cull_old_saves e st2) := by
    refine List.mem_filter.mpr ⟨mem_sortedInfos.mpr hcraw1, ?_⟩
    rw [hc_undo]
    rfl
  rw [get_newest_eq, List.find?_append]
  have hund : (undosOf (_cull_old_saves e st2)).find?
      (fun x => x.game_info.game_id = c.game_info.game_id && !x.is_undo) = none := by
    rw [List.find?_eq_none]
    intro x hx
    have := (undosOf_subset_raw hx).2
    simp [this]
  rw [hund]
  cases hs : savesOf (_cull_old_saves e st2) with
  | nil => rw [hs] at hcsaves; exact absurd hcsaves (List.not_mem_nil c)
  | cons h t =>
    have hhead : h = c := by
      by_contra hhc
      have hhraw : h ∈ rawInfos st2 := by
        apply hsub1
        exact (savesOf_subset_raw (hs ▸ List.mem_cons_self h t)).1
      rw [hraw] at hhraw
      rcases List.mem_append.mp hhraw with hha | hhc2
      · have hlt := hts h hha
        have hcin : c ∈ h :: t := hs ▸ hcsaves
        rcases List.mem_cons.mp hcin with he | ht
        · exact hhc he.symm
        · have hsorted := sorted_savesOf (_cull_old_saves e st2)
          rw [hs] at hsorted
          have := (List.sorted_cons.mp hsorted).1 c ht
          rw [tsGE] at this
          omega
      · rw [List.mem_singleton] at hhc2
        exact hhc hhc2
    subst hhead
    rw [List.find?_cons]
    have : (h.game_info.game_id = h.game_info.game_id && !h.is_undo) = true := by
      rw [hc_undo]
      simp
    rw [this]
    rfl

/-! ### Claim C4 -/

/-- C4: with change detection enabled, backup is idempotent under "nothing
changed": a `do_backup` that creates a snapshot at a time strictly later than
every manifest-file mtime (in ms) makes the immediately following `do_backup`
return "nothing to back up" without touching the store; and in general the
skip fires exactly when the newest existing non-undo snapshot's timestamp is
strictly greater than the maximum modification time of the manifest-listed
files that exist across the save roots.  Side conditions: keep-count at least
1, all pre-existing snapshots older than `now`, and no pre-existing snapshot
name a prefix of the new sidecar name (generated names satisfy this). -/
theorem c4_backup_idempotent :
    (∀ (e : Engine) (gfs : GFs) (gi : GameInfo) (rcf : List String)
        (now now2 T : Nat) (store store1 : Store) (si : SaveInfo),
      e.ignore_unchanged = true →
      e.dry_run = false →
      1 ≤ e.max_saves →
      _get_rcf_timestamp gfs rcf gi.roots = .ok T →
      T < now →
      (∀ x ∈ rawInfos store, x.timestamp < now) →
      (∀ x ∈ rawInfos store,
        strPref x.filename (mkFilename false gi.game_id now ++ ".json") = false) →
      do_backup e gfs gi rcf now false store = (store1, .ok (.backedUp si)) →
      do_backup e gfs gi rcf now2 false store1 = (store1, .ok .noBackup)) ∧
    (∀ (e : Engine) (gfs : GFs) (gi : GameInfo) (rcf : List String) (now : Nat)
        (dry : Bool) (store : Store) (n : SaveInfo) (T : Nat),
      rcf ≠ [] →
      e.ignore_unchanged = true →
      _get_newest_save gi.game_id store = some n →
      _get_rcf_timestamp gfs rcf gi.roots = .ok T →
      ((do_backup e gfs gi rcf now dry store).2 = .ok .noBackup ↔ T < n.timestamp)) := by
  constructor
  · intro e gfs gi rcf now now2 T store store1 si hig hdr hmax hT hTnow hts hpref hcall1
    unfold do_backup at hcall1
    by_cases hrcf : rcf = []
    · rw [if_pos hrcf] at hcall1
      simp at hcall1
    · rw [if_neg hrcf] at hcall1
      cases hbs0 : backupSkip e gfs gi rcf store with
      | error ex => rw [hbs0] at hcall1; simp at hcall1
      | ok b =>
        rw [hbs0] at hcall1
        cases b with
        | true => simp at hcall1
        | false =>
          dsimp only at hcall1
          rw [if_neg (by simp : ¬ (false = true))] at hcall1
          cases hca : _copy_all_to_saveinfo e gfs
              (_create_savedir e gi now false store).1 rcf
              (_create_savedir e gi now false store).2 with
          | mk st2 exc =>
            rw [hca] at hcall1
            cases exc with
            | some ex => simp at hcall1
            | none =>
              have hstore1 : store1 = _cull_old_saves e st2 :=
                (congrArg Prod.fst hcall1).symm
              have hc1 : (_create_savedir e gi now false store).1 =
                  ⟨gi, now, mkFilename false gi.game_id now, false⟩ := rfl
              have hcs2 : (_create_savedir e gi now false store).2 =
                  store ++ [Entry.json (mkFilename false gi.game_id now)
                    (.valid ⟨gi, now, mkFilename false gi.game_id now, false⟩)] := by
                unfold _create_savedir
                rw [hdr]
                rfl
              -- invert the successful copy into a store-shape fact
              unfold _copy_all_to_saveinfo at hca
              cases hcl : copyRootsLoop e gfs rcf
                  (_create_savedir e gi now false store).1.filename
                  (_create_savedir e gi now false store).1.game_info.roots
                  (_create_savedir e gi now false store).2 with
              | mk stL excL =>
                rw [hcl] at hca
                cases excL with
                | some exL => simp at hca
                | none =>
                  have hst2 : st2 = stL := by
                    have := congrArg Prod.fst hca
                    exact this.symm
                  obtain ⟨ps, hshape, hpfiles⟩ := copyRootsLoop_shape e gfs rcf
                    (_create_savedir e gi now false store).1.filename
                    (_create_savedir e gi now false store).1.game_info.roots
                    (_create_savedir e gi now false store).2
                  rw [hcl] at hshape
                  dsimp only at hshape
                  have hst2eq : st2 = (_create_savedir e gi now false store).2 ++ ps := by
                    rw [hst2, hshape]
                  have hpsnil : rawInfos ps = [] := rawInfos_pfiles_nil (fun en hen => by
                    obtain ⟨sfx, k, hk⟩ := hpfiles en hen
                    exact ⟨_, _, hk⟩)
                  have hraw2 : rawInfos st2 = rawInfos store ++
                      [⟨gi, now, mkFilename false gi.game_id now, false⟩] := by
                    rw [hst2eq, hcs2, rawInfos_append, rawInfos_append,
                      hpsnil, List.append_nil]
                    rfl
                  have hjson2 : Entry.json (mkFilename false gi.game_id now)
                      (.valid ⟨gi, now, mkFilename false gi.game_id now, false⟩) ∈ st2 := by
                    rw [hst2eq, hcs2]
                    refine List.mem_append.mpr (Or.inl ?_)
                    exact List.mem_append.mpr (Or.inr (List.mem_singleton.mpr rfl))
                  have hnewest := newest_after_backup e store st2
                    ⟨gi, now, mkFilename false gi.game_id now, false⟩
                    rfl hraw2 hjson2 hts hpref hmax
                  -- the second call skips
                  unfold do_backup
                  rw [if_neg hrcf]
                  have hbs2 : backupSkip e gfs gi rcf store1 = .ok true := by
                    unfold backupSkip
                    rw [hstore1]
                    rw [show _get_newest_save gi.game_id (_cull_old_saves e st2) =
                      some ⟨gi, now, mkFilename false gi.game_id now, false⟩ from hnewest]
                    dsimp only
                    rw [if_pos hig, hT]
                    simp [hTnow]
                  rw [hbs2]
  · intro e gfs gi rcf now dry store n T hrcf hig hn hT
    have hbs : backupSkip e gfs gi rcf store = .ok (decide (n.timestamp > T)) := by
      unfold backupSkip
      rw [hn]
      dsimp only
      rw [if_pos hig, hT]
    unfold do_backup
    rw [if_neg hrcf, hbs]
    by_cases hgt : T < n.timestamp
    · rw [decide_eq_true hgt]
      simpa using hgt
    · rw [decide_eq_false hgt]
      dsimp only
      constructor
      · intro hcon
        by_cases hdry : dry = true
        · rw [if_pos hdry] at hcon
          simp at hcon
        · rw [if_neg hdry] at hcon
          revert hcon
          cases hca : _copy_all_to_saveinfo e gfs
              (_create_savedir e gi now false store).1 rcf
              (_create_savedir e gi now false store).2 with
          | mk st2 exc =>
            cases exc with
            | some ex => intro hcon; simp at hcon
            | none => intro hcon; simp at hcon
      · intro hcon
        exact absurd hcon hgt

theorem c4_backup_idempotent_witness :
    do_backup engEx gfsEx giEx ["f"] 100 false
        ((do_backup engEx gfsEx giEx ["f"] 50 false []).1) =
      ((do_backup engEx gfsEx giEx ["f"] 50 false []).1, .ok .noBackup) ∧
    ((do_backup engEx gfsEx giEx ["f"] 77 false storeEx).2 = .ok .noBackup ↔
      10 < siEx123.timestamp) :=
  ⟨c4_backup_idempotent.1 engEx gfsEx giEx ["f"] 50 100 10
      [] ((do_backup engEx gfsEx giEx ["f"] 50 false []).1)
      ⟨giEx, 50, mkFilename false 1 50, false⟩
      rfl rfl (by decide) rfl (by decide) (by decide) (by decide) rfl,
   c4_backup_idempotent.2 engEx gfsEx giEx ["f"] 77 false storeEx siEx123 10
      (by decide) rfl rfl rfl⟩

end Steamback
